import Mathlib

/-!
Verification of `src/logic_simplifier.py` (repository `varartem/logical_simplifier`).

The Python program defines a sum type of propositional-logic expressions
(`Variable`, `Constant`, `Not`, `And`, `Or`), a `simplify` method on each
variant, a textual renderer (`_str`/`__str__`), a tokenizer-and-parser
(`parse_expression`) and a fixed-point driver (`simplify_logic_expression`).
This file is a shallow embedding of that program: every definition below is
translated from the source, with Python's untyped general recursion made total
by an explicit fuel parameter whose sufficiency is proved
(`simplifyF_stable`, `parserFacts`).
-/

namespace LogicSimplifier

/-- The closed set of expression classes of the source
(`Variable`, `Constant`, `Not`, `And`, `Or`).  Python's
`__eq__` (same class and recursively equal attribute dictionaries) is exactly
structural equality of this inductive, i.e. derived `DecidableEq`. -/
inductive Expression where
  | var (name : String)
  | const (value : Bool)
  | not (operand : Expression)
  | and (left : Expression) (right : Expression)
  | or (left : Expression) (right : Expression)
deriving DecidableEq, Repr

/-- Node count of an expression tree; the termination measure for `simplify`. -/
def esize : Expression → Nat
  | .var _ => 1
  | .const _ => 1
  | .not x => esize x + 1
  | .and l r => esize l + esize r + 1
  | .or l r => esize l + esize r + 1

/-- `And._is_excluded_middle`: the expression is
`Or(Variable(n), Not(Variable(n)))` or its mirror, same name. -/
def isExcludedMiddle : Expression → Bool
  | .or (.var n) (.not (.var m)) => n = m
  | .or (.not (.var n)) (.var m) => n = m
  | _ => false

/-- `Or._is_contradiction`: the expression is
`And(Variable(n), Not(Variable(n)))` or its mirror, same name. -/
def isContradiction : Expression → Bool
  | .and (.var n) (.not (.var m)) => n = m
  | .and (.not (.var n)) (.var m) => n = m
  | _ => false

/-- The rule dispatch of `And.simplify`, applied after both operands are
simplified: false-annihilation (left then right), true-identity (left then
right), structural-equality idempotence, excluded-middle elimination (left
then right), else rebuild. -/
def andRules (l r : Expression) : Expression :=
  if l = .const false then .const false
  else if r = .const false then .const false
  else if l = .const true then r
  else if r = .const true then l
  else if l = r then l
  else if isExcludedMiddle l then r
  else if isExcludedMiddle r then l
  else .and l r

/-- The rule dispatch of `Or.simplify`: true-annihilation (left then right),
false-identity (left then right), idempotence, contradiction elimination
(left then right), else rebuild. -/
def orRules (l r : Expression) : Expression :=
  if l = .const true then .const true
  else if r = .const true then .const true
  else if l = .const false then r
  else if r = .const false then l
  else if l = r then l
  else if isContradiction l then r
  else if isContradiction r then l
  else .or l r

/-- Fuel-indexed embedding of the `simplify` methods.  The recursion of the
source is not structural: in `Not.simplify`, after simplifying the operand to
`Not(y)` the code calls `simplify` again on `y`, a subterm of the *result*.
The fuel argument makes the definition total; `simplifyF_stable` proves that
`esize e` fuel suffices, so `simplify` below is the function computed by the
source. -/
def simplifyF : Nat → Expression → Expression
  | 0, e => e
  | _ + 1, .var a => .var a
  | _ + 1, .const b => .const b
  | n + 1, .not x =>
    match simplifyF n x with
    | .not y => simplifyF n y
    | .const v => .const (!v)
    | s => .not s
  | n + 1, .and l r => andRules (simplifyF n l) (simplifyF n r)
  | n + 1, .or l r => orRules (simplifyF n l) (simplifyF n r)

/-- `simplify`: one bottom-up pass of the source's `simplify` methods. -/
def simplify (e : Expression) : Expression := simplifyF (esize e) e

/-- `isinstance(side, Or)`: used by `And._str` to decide parenthesisation. -/
def isOrNode : Expression → Bool
  | .or _ _ => true
  | _ => false

/-- The renderer (`_str`/`__str__` of the source): `Variable` → its name,
`Constant` → `"True"`/`"False"`, `Not(x)` → `"not x"` when `x` is a
`Variable` or `Constant` else `"not (x)"`, `And` parenthesises a side only
when that side is an `Or`, `Or` is always fully parenthesised. -/
def toStr : Expression → String
  | .var a => a
  | .const b => if b then "True" else "False"
  | .not x =>
    match x with
    | .var _ => "not " ++ toStr x
    | .const _ => "not " ++ toStr x
    | _ => "not (" ++ toStr x ++ ")"
  | .and l r =>
    (if isOrNode l then "(" ++ toStr l ++ ")" else toStr l) ++ " and " ++
      (if isOrNode r then "(" ++ toStr r ++ ")" else toStr r)
  | .or l r => "(" ++ toStr l ++ " or " ++ toStr r ++ ")"

/-- Truth-value semantics of an expression under an assignment of booleans to
variable names.  The program has no evaluator; this is the standard meaning
used to state semantic preservation of the rewrites. -/
def evalExpr (ρ : String → Bool) : Expression → Bool
  | .var a => ρ a
  | .const b => b
  | .not x => !evalExpr ρ x
  | .and l r => evalExpr ρ l && evalExpr ρ r
  | .or l r => evalExpr ρ l || evalExpr ρ r

/-- `k`-fold application of `simplify`. -/
def simpIter : Nat → Expression → Expression
  | 0, e => e
  | k + 1, e => simpIter k (simplify e)

/-- The while-loop of `simplify_logic_expression`, fuel-indexed: compute
`simplified = current.simplify()`; return it if it renders like `current`;
otherwise continue with it; on fuel exhaustion return the last computed
tree.  The source runs it with `max_steps = 10`. -/
def simpLoopF : Nat → Expression → Expression
  | 0, e => e
  | n + 1, e =>
    if toStr (simplify e) = toStr e then simplify e else simpLoopF n (simplify e)

/-- The fixed-point driver `simplify_logic_expression` on an already-built
`Expression` (the `LogicExpression` branch of the source's type dispatch). -/
def simplify_logic_expression (e : Expression) : Expression := simpLoopF 10 e

/-- Tokens are the character segments the source's scanner appends to its
`tokens` list. -/
abbrev Tok := List Char

def trueTok : Tok := ['T', 'r', 'u', 'e']

def falseTok : Tok := ['F', 'a', 'l', 's', 'e']

def lcTrueTok : Tok := ['t', 'r', 'u', 'e']

def lcFalseTok : Tok := ['f', 'a', 'l', 's', 'e']

/-- Python's `str.isalpha()`: non-empty and every character alphabetic.
(The source is only ever fed ASCII, where `Char.isAlpha` agrees with
Python's Unicode-aware `isalpha`.) -/
def isalphaTok (t : Tok) : Bool := !t.isEmpty && t.all Char.isAlpha

/-- Python's `str.replace(pat, rep)`, fuel-indexed: replace every occurrence
of `pat`, scanning left to right, continuing after each inserted
replacement.  Each step consumes at least one character, so fuel
`s.length` suffices (`replaceAllF_stable`). -/
def replaceAllF (pat rep : List Char) : Nat → List Char → List Char
  | 0, s => s
  | _ + 1, [] => []
  | n + 1, c :: cs =>
    if pat ≠ [] ∧ pat.isPrefixOf (c :: cs) then
      rep ++ replaceAllF pat rep n ((c :: cs).drop pat.length)
    else
      c :: replaceAllF pat rep n cs

/-- `str.replace(pat, rep)` of the source. -/
def replaceAll (pat rep s : List Char) : List Char :=
  replaceAllF pat rep s.length s

/-- The scanner loop of `parse_expression`, fuel-indexed: at each position it
first tries the literal 4-character prefix `"True"`, then the 5-character
`"False"`, then a maximal run of alphabetic characters, then the
single-character operator tokens, and silently skips any other character.
Each step consumes at least one character, so fuel `s.length` suffices
(`tokenizeF_stable`). -/
def tokenizeF : Nat → List Char → List Tok
  | 0, _ => []
  | _ + 1, [] => []
  | n + 1, c :: cs =>
    if c = 'T' ∧ cs.take 3 = ['r', 'u', 'e'] then
      trueTok :: tokenizeF n (cs.drop 3)
    else if c = 'F' ∧ cs.take 4 = ['a', 'l', 's', 'e'] then
      falseTok :: tokenizeF n (cs.drop 4)
    else if c.isAlpha then
      (c :: cs.takeWhile Char.isAlpha) :: tokenizeF n (cs.dropWhile Char.isAlpha)
    else if c = '~' ∨ c = '&' ∨ c = '|' ∨ c = '(' ∨ c = ')' then
      [c] :: tokenizeF n cs
    else
      tokenizeF n cs

/-- The token scanner of `parse_expression`. -/
def tokenize (s : List Char) : List Tok := tokenizeF s.length s

/-- The four `ValueError` conditions of the source's parser, plus the
fuel-exhaustion marker of the embedding (proved unreachable in
`parserFacts`). -/
inductive PErr where
  | emptyPrimary
  | missingRParen
  | unknownToken (t : String)
  | fuelOut
deriving DecidableEq, Repr

mutual

/-- `parse_primary`: constants, lowercase constants, variables, `~`,
parenthesised expressions; otherwise the unknown-token error.  Fuel-indexed
(the source recurses through the shared mutable token list). -/
def parsePrimaryF : Nat → List Tok → Except PErr (Expression × List Tok)
  | 0, _ => .error .fuelOut
  | _ + 1, [] => .error .emptyPrimary
  | n + 1, t :: ts =>
    if t = trueTok then .ok (.const true, ts)
    else if t = falseTok then .ok (.const false, ts)
    else if t = lcTrueTok then .ok (.const true, ts)
    else if t = lcFalseTok then .ok (.const false, ts)
    else if isalphaTok t then .ok (.var ⟨t⟩, ts)
    else if t = ['~'] then
      match parsePrimaryF n ts with
      | .ok (e, rem) => .ok (.not e, rem)
      | .error er => .error er
    else if t = ['('] then
      match parseExprF n ts with
      | .ok (e, rem) =>
        match rem with
        | r :: rem2 =>
          if r = [')'] then .ok (e, rem2) else .error .missingRParen
        | [] => .error .missingRParen
      | .error er => .error er
    else .error (.unknownToken ⟨t⟩)

/-- The `while tokens and tokens[0] in "&|"` loop of
`parse_expression_tokens`: left fold of `&`/`|` at a single precedence
level. -/
def parseLoopF : Nat → Expression → List Tok → Except PErr (Expression × List Tok)
  | 0, _, _ => .error .fuelOut
  | _ + 1, left, [] => .ok (left, [])
  | n + 1, left, t :: ts =>
    if t = ['&'] ∨ t = ['|'] then
      match parsePrimaryF n ts with
      | .ok (right, rem) =>
        parseLoopF n (if t = ['&'] then .and left right else .or left right) rem
      | .error er => .error er
    else .ok (left, t :: ts)

/-- `parse_expression_tokens`: a primary followed by the operator loop. -/
def parseExprF : Nat → List Tok → Except PErr (Expression × List Tok)
  | 0, _ => .error .fuelOut
  | n + 1, ts =>
    match parsePrimaryF n ts with
    | .ok (left, rem) => parseLoopF n left rem
    | .error er => .error er

end

/-- `parse_primary` with the fuel proved sufficient in `parserFacts`. -/
def parsePrimaryT (ts : List Tok) : Except PErr (Expression × List Tok) :=
  parsePrimaryF (2 * ts.length + 1) ts

/-- `parse_expression_tokens` with the fuel proved sufficient in
`parserFacts`. -/
def parseExprT (ts : List Tok) : Except PErr (Expression × List Tok) :=
  parseExprF (2 * ts.length + 2) ts

/-- The messages of the source's four `ValueError` raises. -/
def pmsg : PErr → String
  | .emptyPrimary => "Неправильное выражение"
  | .missingRParen => "Ожидалась закрывающая скобка"
  | .unknownToken t => "Неизвестный токен: " ++ t
  | .fuelOut => "fuel"

def notPat : List Char := ['n', 'o', 't']

def andPat : List Char := ['a', 'n', 'd']

def orPat : List Char := ['o', 'r']

/-- `parse_expression`: strip the space character, textually replace the
keywords `not`/`and`/`or` by `~`/`&`/`|` (in that order), tokenize, parse a
complete expression, fail on leftover tokens, and wrap any inner failure
message as `"Ошибка парсинга: <inner>"`. -/
def parse_expression (s : String) : Except String Expression :=
  let s1 := s.data.filter (fun c => c ≠ ' ')
  let s2 := replaceAll notPat ['~'] s1
  let s3 := replaceAll andPat ['&'] s2
  let s4 := replaceAll orPat ['|'] s3
  let tokens := tokenize s4
  match parseExprF (2 * tokens.length + 2) tokens with
  | .ok (e, []) => .ok e
  | .ok (_, _ :: _) => .error ("Ошибка парсинга: " ++ "Лишние токены в выражении")
  | .error er => .error ("Ошибка парсинга: " ++ pmsg er)

/-- Fuel-independence, token consumption and fuel-error-freedom of
`parse_primary` at fuel at least `2·|ts| + 1`. -/
def PrimFacts (ts : List Tok) : Prop :=
  ∀ n m, 2 * ts.length + 1 ≤ n → 2 * ts.length + 1 ≤ m →
    (parsePrimaryF n ts = parsePrimaryF m ts ∧
     (∀ e rem, parsePrimaryF n ts = .ok (e, rem) → rem.length < ts.length) ∧
     parsePrimaryF n ts ≠ .error .fuelOut)

/-- Fuel-independence, token consumption and fuel-error-freedom of the
operator loop at fuel at least `2·|ts| + 1`. -/
def LoopFacts (ts : List Tok) : Prop :=
  ∀ (left : Expression) n m, 2 * ts.length + 1 ≤ n → 2 * ts.length + 1 ≤ m →
    (parseLoopF n left ts = parseLoopF m left ts ∧
     (∀ e rem, parseLoopF n left ts = .ok (e, rem) → rem.length ≤ ts.length) ∧
     parseLoopF n left ts ≠ .error .fuelOut)

/-- Fuel-independence, token consumption and fuel-error-freedom of
`parse_expression_tokens` at fuel at least `2·|ts| + 2`. -/
def ExprFacts (ts : List Tok) : Prop :=
  ∀ n m, 2 * ts.length + 2 ≤ n → 2 * ts.length + 2 ≤ m →
    (parseExprF n ts = parseExprF m ts ∧
     (∀ e rem, parseExprF n ts = .ok (e, rem) → rem.length < ts.length) ∧
     parseExprF n ts ≠ .error .fuelOut)

/-- Transcribed from the spec's words (§4.3, `And` rule 4): the
excluded-middle pattern `Or(Variable(n), Not(Variable(n)))` or its mirror
with the same name. -/
def specIsExcludedMiddle : Expression → Bool
  | .or (.var n) (.not (.var m)) => n = m
  | .or (.not (.var n)) (.var m) => n = m
  | _ => false

/-- Transcribed from the spec's words (§4.3, `Or` rule 4): the contradiction
pattern `And(Variable(n), Not(Variable(n)))` or its mirror. -/
def specIsContradiction : Expression → Bool
  | .and (.var n) (.not (.var m)) => n = m
  | .and (.not (.var n)) (.var m) => n = m
  | _ => false

/-- Transcribed from the spec's words (§4.3): the `And` rules in the spec's
stated precedence order — either side `Constant(false)` gives
`Constant(false)`; `Constant(true)` on one side returns the other;
structural equality returns the left side; an excluded-middle side returns
the other side; otherwise rebuild. -/
def specAndRules (l r : Expression) : Expression :=
  if l = .const false ∨ r = .const false then .const false
  else if l = .const true then r
  else if r = .const true then l
  else if l = r then l
  else if specIsExcludedMiddle l then r
  else if specIsExcludedMiddle r then l
  else .and l r

/-- Transcribed from the spec's words (§4.3): the `Or` rules in the spec's
stated precedence order (the duals of the `And` rules). -/
def specOrRules (l r : Expression) : Expression :=
  if l = .const true ∨ r = .const true then .const true
  else if l = .const false then r
  else if r = .const false then l
  else if l = r then l
  else if specIsContradiction l then r
  else if specIsContradiction r then l
  else .or l r

/-- Python's `pat in s` (substring containment), used to state which inputs
the keyword-replacement pass alters. -/
def hasSub (pat : List Char) : List Char → Bool
  | [] => pat.isEmpty
  | c :: cs => pat.isPrefixOf (c :: cs) || hasSub pat cs

theorem esize_pos (e : Expression) : 1 ≤ esize e := by
  cases e <;> simp only [esize] <;> omega

theorem esize_andRules (l r : Expression) :
    esize (andRules l r) ≤ esize l + esize r + 1 := by
  unfold andRules
  have hl := esize_pos l
  have hr := esize_pos r
  repeat' split
  all_goals ((try simp only [esize]); omega)

theorem esize_orRules (l r : Expression) :
    esize (orRules l r) ≤ esize l + esize r + 1 := by
  unfold orRules
  have hl := esize_pos l
  have hr := esize_pos r
  repeat' split
  all_goals ((try simp only [esize]); omega)

/-- A simplification pass never grows the tree. -/
theorem esize_simplifyF : ∀ (n : Nat) (e : Expression),
    esize (simplifyF n e) ≤ esize e := by
  intro n
  induction n with
  | zero => intro e; simp [simplifyF]
  | succ n ih =>
    intro e
    cases e with
    | var a => simp [simplifyF, esize]
    | const b => simp [simplifyF, esize]
    | not x =>
      show esize (match simplifyF n x with
        | .not y => simplifyF n y
        | .const v => .const (!v)
        | s => .not s) ≤ esize (.not x)
      have hx := ih x
      cases hs : simplifyF n x with
      | not y =>
        have hy := ih y
        rw [hs] at hx
        simp only [esize] at hx ⊢
        omega
      | const v => simp only [esize]; omega
      | var a =>
        rw [hs] at hx
        simp only [esize] at hx ⊢
        omega
      | and a b =>
        rw [hs] at hx
        simp only [esize] at hx ⊢
        omega
      | or a b =>
        rw [hs] at hx
        simp only [esize] at hx ⊢
        omega
    | and l r =>
      show esize (andRules (simplifyF n l) (simplifyF n r)) ≤ esize (.and l r)
      calc esize (andRules (simplifyF n l) (simplifyF n r))
          ≤ esize (simplifyF n l) + esize (simplifyF n r) + 1 :=
            esize_andRules _ _
        _ ≤ esize l + esize r + 1 := by have := ih l; have := ih r; omega
        _ = esize (.and l r) := rfl
    | or l r =>
      show esize (orRules (simplifyF n l) (simplifyF n r)) ≤ esize (.or l r)
      calc esize (orRules (simplifyF n l) (simplifyF n r))
          ≤ esize (simplifyF n l) + esize (simplifyF n r) + 1 :=
            esize_orRules _ _
        _ ≤ esize l + esize r + 1 := by have := ih l; have := ih r; omega
        _ = esize (.or l r) := rfl

/-- Fuel stability: any fuel at least `esize e` computes the same result.
This is the termination argument for the source's `simplify`. -/
theorem simplifyF_stable : ∀ (n : Nat), ∀ (e : Expression) (m : Nat),
    esize e ≤ n → esize e ≤ m → simplifyF n e = simplifyF m e := by
  intro n
  induction n with
  | zero => intro e m h _; have := esize_pos e; omega
  | succ n ih =>
    intro e m hn hm
    have hm1 : 1 ≤ m := le_trans (esize_pos e) hm
    obtain ⟨m', rfl⟩ : ∃ m', m = m' + 1 := ⟨m - 1, by omega⟩
    cases e with
    | var a => rfl
    | const b => rfl
    | not x =>
      have hxn : esize x ≤ n := by simp only [esize] at hn; omega
      have hxm : esize x ≤ m' := by simp only [esize] at hm; omega
      have hx : simplifyF n x = simplifyF m' x := ih x m' hxn hxm
      show (match simplifyF n x with
        | .not y => simplifyF n y
        | .const v => .const (!v)
        | s => .not s) =
        (match simplifyF m' x with
        | .not y => simplifyF m' y
        | .const v => .const (!v)
        | s => .not s)
      rw [← hx]
      cases hs : simplifyF n x with
      | not y =>
        have hsz := esize_simplifyF n x
        rw [hs] at hsz
        simp only [esize] at hsz
        exact ih y m' (by omega) (by omega)
      | var a => rfl
      | const v => rfl
      | and a b => rfl
      | or a b => rfl
    | and l r =>
      have h1 : esize l ≤ n ∧ esize r ≤ n := by simp only [esize] at hn; omega
      have h2 : esize l ≤ m' ∧ esize r ≤ m' := by simp only [esize] at hm; omega
      show andRules (simplifyF n l) (simplifyF n r) =
        andRules (simplifyF m' l) (simplifyF m' r)
      rw [ih l m' h1.1 h2.1, ih r m' h1.2 h2.2]
    | or l r =>
      have h1 : esize l ≤ n ∧ esize r ≤ n := by simp only [esize] at hn; omega
      have h2 : esize l ≤ m' ∧ esize r ≤ m' := by simp only [esize] at hm; omega
      show orRules (simplifyF n l) (simplifyF n r) =
        orRules (simplifyF m' l) (simplifyF m' r)
      rw [ih l m' h1.1 h2.1, ih r m' h1.2 h2.2]

theorem simplifyF_eq_simplify (n : Nat) (e : Expression) (h : esize e ≤ n) :
    simplifyF n e = simplify e :=
  simplifyF_stable n e (esize e) h le_rfl

theorem simplify_var (a : String) : simplify (.var a) = .var a := rfl

theorem simplify_const (b : Bool) : simplify (.const b) = .const b := rfl

/-- Unfolding equation of `Not.simplify`. -/
theorem simplify_not (x : Expression) :
    simplify (.not x) =
      (match simplify x with
        | .not y => simplify y
        | .const v => .const (!v)
        | s => .not s) := by
  show simplifyF (esize x + 1) (.not x) = _
  show (match simplifyF (esize x) x with
    | .not y => simplifyF (esize x) y
    | .const v => .const (!v)
    | s => .not s) = _
  show (match simplify x with
    | .not y => simplifyF (esize x) y
    | .const v => .const (!v)
    | s => .not s) = _
  cases hs : simplify x with
  | not y =>
    have hsz : esize (Expression.not y) ≤ esize x := by
      rw [← hs]; exact esize_simplifyF (esize x) x
    simp only [esize] at hsz
    exact simplifyF_eq_simplify (esize x) y (by omega)
  | var a => rfl
  | const v => rfl
  | and a b => rfl
  | or a b => rfl

/-- Unfolding equation of `And.simplify`. -/
theorem simplify_and (l r : Expression) :
    simplify (.and l r) = andRules (simplify l) (simplify r) := by
  show simplifyF (esize l + esize r + 1) (.and l r) = _
  show andRules (simplifyF (esize l + esize r) l)
      (simplifyF (esize l + esize r) r) = _
  rw [simplifyF_eq_simplify _ l (Nat.le_add_right _ _),
    simplifyF_eq_simplify _ r (Nat.le_add_left _ _)]

/-- Unfolding equation of `Or.simplify`. -/
theorem simplify_or (l r : Expression) :
    simplify (.or l r) = orRules (simplify l) (simplify r) := by
  show simplifyF (esize l + esize r + 1) (.or l r) = _
  show orRules (simplifyF (esize l + esize r) l)
      (simplifyF (esize l + esize r) r) = _
  rw [simplifyF_eq_simplify _ l (Nat.le_add_right _ _),
    simplifyF_eq_simplify _ r (Nat.le_add_left _ _)]

theorem evalExpr_of_isExcludedMiddle (ρ : String → Bool) (e : Expression)
    (h : isExcludedMiddle e = true) : evalExpr ρ e = true := by
  cases e with
  | or l r =>
    cases l with
    | var n =>
      cases r with
      | not z =>
        cases z with
        | var m =>
          simp only [isExcludedMiddle, decide_eq_true_eq] at h
          subst h
          simp [evalExpr]
        | _ => simp [isExcludedMiddle] at h
      | _ => simp [isExcludedMiddle] at h
    | not z =>
      cases z with
      | var n =>
        cases r with
        | var m =>
          simp only [isExcludedMiddle, decide_eq_true_eq] at h
          subst h
          simp [evalExpr]
        | _ => simp [isExcludedMiddle] at h
      | _ => simp [isExcludedMiddle] at h
    | _ => simp [isExcludedMiddle] at h
  | _ => simp [isExcludedMiddle] at h

theorem evalExpr_of_isContradiction (ρ : String → Bool) (e : Expression)
    (h : isContradiction e = true) : evalExpr ρ e = false := by
  cases e with
  | and l r =>
    cases l with
    | var n =>
      cases r with
      | not z =>
        cases z with
        | var m =>
          simp only [isContradiction, decide_eq_true_eq] at h
          subst h
          simp [evalExpr]
        | _ => simp [isContradiction] at h
      | _ => simp [isContradiction] at h
    | not z =>
      cases z with
      | var n =>
        cases r with
        | var m =>
          simp only [isContradiction, decide_eq_true_eq] at h
          subst h
          simp [evalExpr]
        | _ => simp [isContradiction] at h
      | _ => simp [isContradiction] at h
    | _ => simp [isContradiction] at h
  | _ => simp [isContradiction] at h

theorem evalExpr_andRules (ρ : String → Bool) (l r : Expression) :
    evalExpr ρ (andRules l r) = (evalExpr ρ l && evalExpr ρ r) := by
  unfold andRules
  split
  · next h => subst h; simp [evalExpr]
  · split
    · next h => subst h; simp [evalExpr]
    · split
      · next h => subst h; simp [evalExpr]
      · split
        · next h => subst h; simp [evalExpr]
        · split
          · next h => subst h; simp
          · split
            · next h => rw [evalExpr_of_isExcludedMiddle ρ _ h]; simp
            · split
              · next h => rw [evalExpr_of_isExcludedMiddle ρ _ h]; simp
              · simp [evalExpr]

theorem evalExpr_orRules (ρ : String → Bool) (l r : Expression) :
    evalExpr ρ (orRules l r) = (evalExpr ρ l || evalExpr ρ r) := by
  unfold orRules
  split
  · next h => subst h; simp [evalExpr]
  · split
    · next h => subst h; simp [evalExpr]
    · split
      · next h => subst h; simp [evalExpr]
      · split
        · next h => subst h; simp [evalExpr]
        · split
          · next h => subst h; simp
          · split
            · next h => rw [evalExpr_of_isContradiction ρ _ h]; simp
            · split
              · next h => rw [evalExpr_of_isContradiction ρ _ h]; simp
              · simp [evalExpr]

theorem evalExpr_simplifyF (ρ : String → Bool) : ∀ (n : Nat) (e : Expression),
    evalExpr ρ (simplifyF n e) = evalExpr ρ e := by
  intro n
  induction n with
  | zero => intro e; rfl
  | succ n ih =>
    intro e
    cases e with
    | var a => rfl
    | const b => rfl
    | not x =>
      show evalExpr ρ (match simplifyF n x with
        | .not y => simplifyF n y
        | .const v => .const (!v)
        | s => .not s) = evalExpr ρ (.not x)
      have hx := ih x
      cases hs : simplifyF n x with
      | not y =>
        rw [hs] at hx
        have hy := ih y
        simp only [evalExpr] at hx ⊢
        rw [hy]
        rw [← hx, Bool.not_not]
      | const v =>
        rw [hs] at hx
        simp only [evalExpr] at hx ⊢
        rw [← hx]
      | var a =>
        rw [hs] at hx
        simp only [evalExpr] at hx ⊢
        rw [hx]
      | and a b =>
        rw [hs] at hx
        simp only [evalExpr] at hx ⊢
        rw [hx]
      | or a b =>
        rw [hs] at hx
        simp only [evalExpr] at hx ⊢
        rw [hx]
    | and l r =>
      show evalExpr ρ (andRules (simplifyF n l) (simplifyF n r)) =
        evalExpr ρ (.and l r)
      rw [evalExpr_andRules, ih l, ih r]
      rfl
    | or l r =>
      show evalExpr ρ (orRules (simplifyF n l) (simplifyF n r)) =
        evalExpr ρ (.or l r)
      rw [evalExpr_orRules, ih l, ih r]
      rfl

theorem evalExpr_simplify (ρ : String → Bool) (e : Expression) :
    evalExpr ρ (simplify e) = evalExpr ρ e :=
  evalExpr_simplifyF ρ (esize e) e

theorem andRules_fix (l r : Expression) (hl : simplify l = l)
    (hr : simplify r = r) : simplify (andRules l r) = andRules l r := by
  unfold andRules
  by_cases h1 : l = Expression.const false
  · simp only [if_pos h1]; rfl
  · simp only [if_neg h1]
    by_cases h2 : r = Expression.const false
    · simp only [if_pos h2]; rfl
    · simp only [if_neg h2]
      by_cases h3 : l = Expression.const true
      · simp only [if_pos h3]; exact hr
      · simp only [if_neg h3]
        by_cases h4 : r = Expression.const true
        · simp only [if_pos h4]; exact hl
        · simp only [if_neg h4]
          by_cases h5 : l = r
          · simp only [if_pos h5]; exact hl
          · simp only [if_neg h5]
            by_cases h6 : isExcludedMiddle l = true
            · simp only [if_pos h6]; exact hr
            · simp only [if_neg h6]
              by_cases h7 : isExcludedMiddle r = true
              · simp only [if_pos h7]; exact hl
              · simp only [if_neg h7]
                rw [simplify_and, hl, hr]
                unfold andRules
                simp only [if_neg h1, if_neg h2, if_neg h3, if_neg h4,
                  if_neg h5, if_neg h6, if_neg h7]

theorem orRules_fix (l r : Expression) (hl : simplify l = l)
    (hr : simplify r = r) : simplify (orRules l r) = orRules l r := by
  unfold orRules
  by_cases h1 : l = Expression.const true
  · simp only [if_pos h1]; rfl
  · simp only [if_neg h1]
    by_cases h2 : r = Expression.const true
    · simp only [if_pos h2]; rfl
    · simp only [if_neg h2]
      by_cases h3 : l = Expression.const false
      · simp only [if_pos h3]; exact hr
      · simp only [if_neg h3]
        by_cases h4 : r = Expression.const false
        · simp only [if_pos h4]; exact hl
        · simp only [if_neg h4]
          by_cases h5 : l = r
          · simp only [if_pos h5]; exact hl
          · simp only [if_neg h5]
            by_cases h6 : isContradiction l = true
            · simp only [if_pos h6]; exact hr
            · simp only [if_neg h6]
              by_cases h7 : isContradiction r = true
              · simp only [if_pos h7]; exact hl
              · simp only [if_neg h7]
                rw [simplify_or, hl, hr]
                unfold orRules
                simp only [if_neg h1, if_neg h2, if_neg h3, if_neg h4,
                  if_neg h5, if_neg h6, if_neg h7]

theorem simplify_simplify_of_le : ∀ (N : Nat) (e : Expression), esize e ≤ N →
    simplify (simplify e) = simplify e := by
  intro N
  induction N with
  | zero => intro e h; have := esize_pos e; omega
  | succ N ih =>
    intro e he
    cases e with
    | var a => rfl
    | const b => rfl
    | not x =>
      have hx : esize x ≤ N := by simp only [esize] at he; omega
      rw [simplify_not x]
      cases hs : simplify x with
      | not y =>
        have hy : esize y ≤ N := by
          have h2 := esize_simplifyF (esize x) x
          rw [show simplifyF (esize x) x = simplify x from rfl, hs] at h2
          simp only [esize] at h2
          omega
        exact ih y hy
      | const v => rfl
      | var a => rw [simplify_not]; rfl
      | and a b =>
        have hfix : simplify (Expression.and a b) = Expression.and a b := by
          have h2 := ih x hx; rw [hs] at h2; exact h2
        rw [simplify_not, hfix]
      | or a b =>
        have hfix : simplify (Expression.or a b) = Expression.or a b := by
          have h2 := ih x hx; rw [hs] at h2; exact h2
        rw [simplify_not, hfix]
    | and l r =>
      have h1 : esize l ≤ N ∧ esize r ≤ N := by simp only [esize] at he; omega
      rw [simplify_and]
      exact andRules_fix _ _ (ih l h1.1) (ih r h1.2)
    | or l r =>
      have h1 : esize l ≤ N ∧ esize r ≤ N := by simp only [esize] at he; omega
      rw [simplify_or]
      exact orRules_fix _ _ (ih l h1.1) (ih r h1.2)

/-- One simplification pass is already a structural fixed point: applying
`simplify` to its own output returns that output unchanged. -/
theorem simplify_idem (e : Expression) : simplify (simplify e) = simplify e :=
  simplify_simplify_of_le (esize e) e le_rfl

theorem simpLoopF_char : ∀ (n : Nat) (e : Expression),
    (∃ k, k < n ∧
      (∀ j, j < k → toStr (simpIter (j + 1) e) ≠ toStr (simpIter j e)) ∧
      toStr (simpIter (k + 1) e) = toStr (simpIter k e) ∧
      simpLoopF n e = simpIter (k + 1) e) ∨
    ((∀ j, j < n → toStr (simpIter (j + 1) e) ≠ toStr (simpIter j e)) ∧
      simpLoopF n e = simpIter n e) := by
  intro n
  induction n with
  | zero =>
    intro e
    exact Or.inr ⟨fun j hj => absurd hj (Nat.not_lt_zero j), rfl⟩
  | succ n ih =>
    intro e
    by_cases h : toStr (simplify e) = toStr e
    · refine Or.inl ⟨0, Nat.succ_pos n, fun j hj => absurd hj (Nat.not_lt_zero j), ?_, ?_⟩
      · exact h
      · show simpLoopF (n + 1) e = simplify e
        simp [simpLoopF, if_pos h]
    · have hstep : simpLoopF (n + 1) e = simpLoopF n (simplify e) := by
        simp [simpLoopF, if_neg h]
      rcases ih (simplify e) with ⟨k, hk, hne, heq, hres⟩ | ⟨hne, hres⟩
      · refine Or.inl ⟨k + 1, by omega, ?_, ?_, ?_⟩
        · intro j hj
          cases j with
          | zero => exact h
          | succ j' => exact hne j' (by omega)
        · exact heq
        · rw [hstep, hres]; rfl
      · refine Or.inr ⟨?_, ?_⟩
        · intro j hj
          cases j with
          | zero => exact h
          | succ j' => exact hne j' (by omega)
        · rw [hstep, hres]; rfl

theorem replaceAllF_stable (pat rep : List Char) : ∀ (n : Nat) (s : List Char)
    (m : Nat), s.length ≤ n → s.length ≤ m →
    replaceAllF pat rep n s = replaceAllF pat rep m s := by
  intro n
  induction n with
  | zero =>
    intro s m hn _
    have : s = [] := List.length_eq_zero.mp (Nat.le_zero.mp hn)
    subst this
    cases m <;> rfl
  | succ n ih =>
    intro s m hn hm
    cases s with
    | nil => cases m <;> rfl
    | cons c cs =>
      obtain ⟨m', rfl⟩ : ∃ m', m = m' + 1 :=
        ⟨m - 1, by simp only [List.length_cons] at hm; omega⟩
      show (if pat ≠ [] ∧ pat.isPrefixOf (c :: cs) then
          rep ++ replaceAllF pat rep n ((c :: cs).drop pat.length)
        else c :: replaceAllF pat rep n cs) =
        (if pat ≠ [] ∧ pat.isPrefixOf (c :: cs) then
          rep ++ replaceAllF pat rep m' ((c :: cs).drop pat.length)
        else c :: replaceAllF pat rep m' cs)
      by_cases h : pat ≠ [] ∧ pat.isPrefixOf (c :: cs)
      · simp only [if_pos h]
        have hp : 1 ≤ pat.length := by
          cases pat with
          | nil => exact absurd rfl h.1
          | cons p ps => simp
        have hlen : ((c :: cs).drop pat.length).length ≤ cs.length := by
          simp only [List.length_drop, List.length_cons]
          omega
        simp only [List.length_cons] at hn hm
        rw [ih _ m' (by omega) (by omega)]
      · simp only [if_neg h]
        simp only [List.length_cons] at hn hm
        rw [ih cs m' (by omega) (by omega)]

theorem tokenizeF_stable : ∀ (n : Nat) (s : List Char) (m : Nat),
    s.length ≤ n → s.length ≤ m → tokenizeF n s = tokenizeF m s := by
  intro n
  induction n with
  | zero =>
    intro s m hn _
    have : s = [] := List.length_eq_zero.mp (Nat.le_zero.mp hn)
    subst this
    cases m <;> rfl
  | succ n ih =>
    intro s m hn hm
    cases s with
    | nil => cases m <;> rfl
    | cons c cs =>
      obtain ⟨m', rfl⟩ : ∃ m', m = m' + 1 :=
        ⟨m - 1, by simp only [List.length_cons] at hm; omega⟩
      simp only [List.length_cons] at hn hm
      show (if c = 'T' ∧ cs.take 3 = ['r', 'u', 'e'] then
          trueTok :: tokenizeF n (cs.drop 3)
        else if c = 'F' ∧ cs.take 4 = ['a', 'l', 's', 'e'] then
          falseTok :: tokenizeF n (cs.drop 4)
        else if c.isAlpha then
          (c :: cs.takeWhile Char.isAlpha) :: tokenizeF n (cs.dropWhile Char.isAlpha)
        else if c = '~' ∨ c = '&' ∨ c = '|' ∨ c = '(' ∨ c = ')' then
          [c] :: tokenizeF n cs
        else tokenizeF n cs) =
        (if c = 'T' ∧ cs.take 3 = ['r', 'u', 'e'] then
          trueTok :: tokenizeF m' (cs.drop 3)
        else if c = 'F' ∧ cs.take 4 = ['a', 'l', 's', 'e'] then
          falseTok :: tokenizeF m' (cs.drop 4)
        else if c.isAlpha then
          (c :: cs.takeWhile Char.isAlpha) :: tokenizeF m' (cs.dropWhile Char.isAlpha)
        else if c = '~' ∨ c = '&' ∨ c = '|' ∨ c = '(' ∨ c = ')' then
          [c] :: tokenizeF m' cs
        else tokenizeF m' cs)
      have hd3 : (cs.drop 3).length ≤ cs.length := by
        simp only [List.length_drop]; omega
      have hd4 : (cs.drop 4).length ≤ cs.length := by
        simp only [List.length_drop]; omega
      have hdw : (cs.dropWhile Char.isAlpha).length ≤ cs.length :=
        (List.dropWhile_sublist (l := cs) Char.isAlpha).length_le
      split
      · rw [ih _ m' (by omega) (by omega)]
      · split
        · rw [ih _ m' (by omega) (by omega)]
        · split
          · rw [ih _ m' (by omega) (by omega)]
          · split
            · rw [ih _ m' (by omega) (by omega)]
            · rw [ih _ m' (by omega) (by omega)]

theorem parserFactsAux : ∀ (len : Nat) (ts : List Tok), ts.length ≤ len →
    PrimFacts ts ∧ LoopFacts ts ∧ ExprFacts ts := by
  intro len
  induction len with
  | zero =>
    intro ts hts
    have hnil : ts = [] := List.length_eq_zero.mp (Nat.le_zero.mp hts)
    subst hnil
    refine ⟨?_, ?_, ?_⟩
    · intro n m hn hm
      obtain ⟨n1, rfl⟩ : ∃ n1, n = n1 + 1 := ⟨n - 1, by omega⟩
      obtain ⟨m1, rfl⟩ : ∃ m1, m = m1 + 1 := ⟨m - 1, by omega⟩
      refine ⟨rfl, fun e rem h => ?_, fun h => ?_⟩
      · exact absurd h (by simp [parsePrimaryF])
      · have h3 : (Except.error PErr.emptyPrimary :
            Except PErr (Expression × List Tok)) = .error .fuelOut := h
        simp at h3
    · intro left n m hn hm
      obtain ⟨n1, rfl⟩ : ∃ n1, n = n1 + 1 := ⟨n - 1, by omega⟩
      obtain ⟨m1, rfl⟩ : ∃ m1, m = m1 + 1 := ⟨m - 1, by omega⟩
      refine ⟨rfl, fun e rem h => ?_, fun h => ?_⟩
      · have h3 : (Except.ok (left, ([] : List Tok)) :
            Except PErr (Expression × List Tok)) = .ok (e, rem) := h
        simp only [Except.ok.injEq, Prod.mk.injEq] at h3
        simp [← h3.2]
      · have h3 : (Except.ok (left, ([] : List Tok)) :
            Except PErr (Expression × List Tok)) = .error .fuelOut := h
        simp at h3
    · intro n m hn hm
      obtain ⟨n1, rfl⟩ : ∃ n1, n = n1 + 1 := ⟨n - 1, by omega⟩
      obtain ⟨m1, rfl⟩ : ∃ m1, m = m1 + 1 := ⟨m - 1, by omega⟩
      obtain ⟨n2, rfl⟩ : ∃ n2, n1 = n2 + 1 := ⟨n1 - 1, by omega⟩
      obtain ⟨m2, rfl⟩ : ∃ m2, m1 = m2 + 1 := ⟨m1 - 1, by omega⟩
      refine ⟨rfl, fun e rem h => ?_, fun h => ?_⟩
      · exact absurd h (by simp [parseExprF, parsePrimaryF])
      · have h3 : (Except.error PErr.emptyPrimary :
            Except PErr (Expression × List Tok)) = .error .fuelOut := h
        simp at h3
  | succ len ih =>
    intro ts hts
    by_cases hlen : ts.length ≤ len
    · exact ih ts hlen
    · have hexact : ts.length = len + 1 := by omega
      cases ts with
      | nil => simp at hexact
      | cons t ts' =>
        have hts' : ts'.length = len := by
          simp only [List.length_cons] at hexact; omega
        obtain ⟨P', L', E'⟩ := ih ts' (le_of_eq hts')
        have hP : PrimFacts (t :: ts') := by
          intro n m hn hm
          simp only [List.length_cons] at hn hm
          obtain ⟨n1, rfl⟩ : ∃ n1, n = n1 + 1 := ⟨n - 1, by omega⟩
          obtain ⟨m1, rfl⟩ : ∃ m1, m = m1 + 1 := ⟨m - 1, by omega⟩
          simp only [parsePrimaryF]
          by_cases h1 : t = trueTok
          · simp only [if_pos h1]
            refine ⟨trivial, fun e rem h => ?_, fun h => ?_⟩
            · have h3 : (Except.ok ((Expression.const true), ts') :
                  Except PErr (Expression × List Tok)) = .ok (e, rem) := h
              simp only [Except.ok.injEq, Prod.mk.injEq] at h3
              simp [← h3.2]
            · have h3 : (Except.ok ((Expression.const true), ts') :
                  Except PErr (Expression × List Tok)) = .error .fuelOut := h
              simp at h3
          · simp only [if_neg h1]
            by_cases h2 : t = falseTok
            · simp only [if_pos h2]
              refine ⟨trivial, fun e rem h => ?_, fun h => ?_⟩
              · have h3 : (Except.ok ((Expression.const false), ts') :
                    Except PErr (Expression × List Tok)) = .ok (e, rem) := h
                simp only [Except.ok.injEq, Prod.mk.injEq] at h3
                simp [← h3.2]
              · have h3 : (Except.ok ((Expression.const false), ts') :
                    Except PErr (Expression × List Tok)) = .error .fuelOut := h
                simp at h3
            · simp only [if_neg h2]
              by_cases h3c : t = lcTrueTok
              · simp only [if_pos h3c]
                refine ⟨trivial, fun e rem h => ?_, fun h => ?_⟩
                · have h3 : (Except.ok ((Expression.const true), ts') :
                      Except PErr (Expression × List Tok)) = .ok (e, rem) := h
                  simp only [Except.ok.injEq, Prod.mk.injEq] at h3
                  simp [← h3.2]
                · have h3 : (Except.ok ((Expression.const true), ts') :
                      Except PErr (Expression × List Tok)) = .error .fuelOut := h
                  simp at h3
              · simp only [if_neg h3c]
                by_cases h4 : t = lcFalseTok
                · simp only [if_pos h4]
                  refine ⟨trivial, fun e rem h => ?_, fun h => ?_⟩
                  · have h3 : (Except.ok ((Expression.const false), ts') :
                        Except PErr (Expression × List Tok)) = .ok (e, rem) := h
                    simp only [Except.ok.injEq, Prod.mk.injEq] at h3
                    simp [← h3.2]
                  · have h3 : (Except.ok ((Expression.const false), ts') :
                        Except PErr (Expression × List Tok)) = .error .fuelOut := h
                    simp at h3
                · simp only [if_neg h4]
                  by_cases h5 : isalphaTok t = true
                  · simp only [if_pos h5]
                    refine ⟨trivial, fun e rem h => ?_, fun h => ?_⟩
                    · have h3 : (Except.ok ((Expression.var ⟨t⟩), ts') :
                          Except PErr (Expression × List Tok)) = .ok (e, rem) := h
                      simp only [Except.ok.injEq, Prod.mk.injEq] at h3
                      simp [← h3.2]
                    · have h3 : (Except.ok ((Expression.var ⟨t⟩), ts') :
                          Except PErr (Expression × List Tok)) = .error .fuelOut := h
                      simp at h3
                  · simp only [if_neg h5]
                    by_cases h6 : t = ['~']
                    · simp only [if_pos h6]
                      obtain ⟨hstab, hcons, hnf⟩ := P' n1 m1 (by omega) (by omega)
                      rw [hstab]
                      cases hres : parsePrimaryF m1 ts' with
                      | ok pr =>
                        obtain ⟨e0, rem0⟩ := pr
                        have hr0 := hcons e0 rem0 (hstab.trans hres)
                        refine ⟨rfl, fun e rem h => ?_, fun h => ?_⟩
                        · have h3 : (Except.ok ((Expression.not e0), rem0) :
                              Except PErr (Expression × List Tok)) = .ok (e, rem) := h
                          simp only [Except.ok.injEq, Prod.mk.injEq] at h3
                          simp only [List.length_cons, ← h3.2]
                          omega
                        · have h3 : (Except.ok ((Expression.not e0), rem0) :
                              Except PErr (Expression × List Tok)) = .error .fuelOut := h
                          simp at h3
                      | error er =>
                        refine ⟨rfl, fun e rem h => ?_, fun h => ?_⟩
                        · have h3 : (Except.error er :
                              Except PErr (Expression × List Tok)) = .ok (e, rem) := h
                          simp at h3
                        · have h3 : (Except.error er :
                              Except PErr (Expression × List Tok)) = .error .fuelOut := h
                          simp only [Except.error.injEq] at h3
                          exact hnf ((hstab.trans hres).trans (by rw [h3]))
                    · simp only [if_neg h6]
                      by_cases h7 : t = ['(']
                      · simp only [if_pos h7]
                        obtain ⟨hstab, hcons, hnf⟩ := E' n1 m1 (by omega) (by omega)
                        rw [hstab]
                        cases hres : parseExprF m1 ts' with
                        | ok pr =>
                          obtain ⟨e0, rem0⟩ := pr
                          have hr0 := hcons e0 rem0 (hstab.trans hres)
                          cases rem0 with
                          | nil =>
                            refine ⟨rfl, fun e rem h => ?_, fun h => ?_⟩
                            · have h3 : (Except.error PErr.missingRParen :
                                  Except PErr (Expression × List Tok)) = .ok (e, rem) := h
                              simp at h3
                            · have h3 : (Except.error PErr.missingRParen :
                                  Except PErr (Expression × List Tok)) = .error .fuelOut := h
                              simp at h3
                          | cons r rem2 =>
                            by_cases h8 : r = [')']
                            · simp only [if_pos h8]
                              refine ⟨trivial, fun e rem h => ?_, fun h => ?_⟩
                              · have h3 : (Except.ok (e0, rem2) :
                                    Except PErr (Expression × List Tok)) = .ok (e, rem) := h
                                simp only [Except.ok.injEq, Prod.mk.injEq] at h3
                                simp only [List.length_cons] at hr0 ⊢
                                rw [← h3.2]
                                omega
                              · have h3 : (Except.ok (e0, rem2) :
                                    Except PErr (Expression × List Tok)) = .error .fuelOut := h
                                simp at h3
                            · simp only [if_neg h8]
                              refine ⟨trivial, fun e rem h => ?_, fun h => ?_⟩
                              · have h3 : (Except.error PErr.missingRParen :
                                    Except PErr (Expression × List Tok)) = .ok (e, rem) := h
                                simp at h3
                              · have h3 : (Except.error PErr.missingRParen :
                                    Except PErr (Expression × List Tok)) = .error .fuelOut := h
                                simp at h3
                        | error er =>
                          refine ⟨rfl, fun e rem h => ?_, fun h => ?_⟩
                          · have h3 : (Except.error er :
                                Except PErr (Expression × List Tok)) = .ok (e, rem) := h
                            simp at h3
                          · have h3 : (Except.error er :
                                Except PErr (Expression × List Tok)) = .error .fuelOut := h
                            simp only [Except.error.injEq] at h3
                            exact hnf ((hstab.trans hres).trans (by rw [h3]))
                      · simp only [if_neg h7]
                        refine ⟨trivial, fun e rem h => ?_, fun h => ?_⟩
                        · have h3 : (Except.error (PErr.unknownToken ⟨t⟩) :
                              Except PErr (Expression × List Tok)) = .ok (e, rem) := h
                          simp at h3
                        · have h3 : (Except.error (PErr.unknownToken ⟨t⟩) :
                              Except PErr (Expression × List Tok)) = .error .fuelOut := h
                          simp at h3
        have hL : LoopFacts (t :: ts') := by
          intro left n m hn hm
          simp only [List.length_cons] at hn hm
          obtain ⟨n1, rfl⟩ : ∃ n1, n = n1 + 1 := ⟨n - 1, by omega⟩
          obtain ⟨m1, rfl⟩ : ∃ m1, m = m1 + 1 := ⟨m - 1, by omega⟩
          simp only [parseLoopF]
          by_cases hop : t = ['&'] ∨ t = ['|']
          · simp only [if_pos hop]
            obtain ⟨hstab, hcons, hnf⟩ := P' n1 m1 (by omega) (by omega)
            rw [hstab]
            cases hres : parsePrimaryF m1 ts' with
            | ok pr =>
              obtain ⟨right, rem0⟩ := pr
              have hr0 := hcons right rem0 (hstab.trans hres)
              obtain ⟨hstab2, hcons2, hnf2⟩ :=
                (ih rem0 (by omega)).2.1
                  (if t = ['&'] then Expression.and left right
                    else Expression.or left right) n1 m1 (by omega) (by omega)
              refine ⟨hstab2, fun e rem h => ?_, hnf2⟩
              have := hcons2 e rem h
              simp only [List.length_cons]
              omega
            | error er =>
              refine ⟨rfl, fun e rem h => ?_, fun h => ?_⟩
              · have h3 : (Except.error er :
                    Except PErr (Expression × List Tok)) = .ok (e, rem) := h
                simp at h3
              · have h3 : (Except.error er :
                    Except PErr (Expression × List Tok)) = .error .fuelOut := h
                simp only [Except.error.injEq] at h3
                exact hnf ((hstab.trans hres).trans (by rw [h3]))
          · simp only [if_neg hop]
            refine ⟨trivial, fun e rem h => ?_, fun h => ?_⟩
            · have h3 : (Except.ok (left, t :: ts') :
                  Except PErr (Expression × List Tok)) = .ok (e, rem) := h
              simp only [Except.ok.injEq, Prod.mk.injEq] at h3
              simp [← h3.2]
            · have h3 : (Except.ok (left, t :: ts') :
                  Except PErr (Expression × List Tok)) = .error .fuelOut := h
              simp at h3
        have hE : ExprFacts (t :: ts') := by
          intro n m hn hm
          simp only [List.length_cons] at hn hm
          obtain ⟨n1, rfl⟩ : ∃ n1, n = n1 + 1 := ⟨n - 1, by omega⟩
          obtain ⟨m1, rfl⟩ : ∃ m1, m = m1 + 1 := ⟨m - 1, by omega⟩
          simp only [parseExprF]
          obtain ⟨hstab, hcons, hnf⟩ := hP n1 m1
            (by simp only [List.length_cons]; omega)
            (by simp only [List.length_cons]; omega)
          rw [hstab]
          cases hres : parsePrimaryF m1 (t :: ts') with
          | ok pr =>
            obtain ⟨left, rem0⟩ := pr
            have hr0 := hcons left rem0 (hstab.trans hres)
            simp only [List.length_cons] at hr0
            obtain ⟨hstab2, hcons2, hnf2⟩ :=
              (ih rem0 (by omega)).2.1 left n1 m1 (by omega) (by omega)
            refine ⟨hstab2, fun e rem h => ?_, hnf2⟩
            have := hcons2 e rem h
            simp only [List.length_cons]
            omega
          | error er =>
            refine ⟨rfl, fun e rem h => ?_, fun h => ?_⟩
            · have h3 : (Except.error er :
                  Except PErr (Expression × List Tok)) = .ok (e, rem) := h
              simp at h3
            · have h3 : (Except.error er :
                  Except PErr (Expression × List Tok)) = .error .fuelOut := h
              simp only [Except.error.injEq] at h3
              exact hnf ((hstab.trans hres).trans (by rw [h3]))
        exact ⟨hP, hL, hE⟩

theorem parserFacts (ts : List Tok) : PrimFacts ts ∧ LoopFacts ts ∧ ExprFacts ts :=
  parserFactsAux ts.length ts le_rfl

/-- Appending tokens after input a parser successfully consumed does not
change what it parses: the unconsumed suffix is appended to the remainder.
For the operator loop and for `parse_expression_tokens` this holds whenever
the remainder is non-empty (the loop stopped at a visible non-operator
token). -/
theorem parseExtAux : ∀ (n : Nat),
    (∀ ts ext e rem, parsePrimaryF n ts = .ok (e, rem) →
      parsePrimaryF n (ts ++ ext) = .ok (e, rem ++ ext)) ∧
    (∀ (left : Expression) ts ext e c rest,
      parseLoopF n left ts = .ok (e, c :: rest) →
      parseLoopF n left (ts ++ ext) = .ok (e, c :: (rest ++ ext))) ∧
    (∀ ts ext e c rest, parseExprF n ts = .ok (e, c :: rest) →
      parseExprF n (ts ++ ext) = .ok (e, c :: (rest ++ ext))) := by
  intro n
  induction n with
  | zero =>
    refine ⟨fun ts ext e rem h => ?_, fun left ts ext e c rest h => ?_,
      fun ts ext e c rest h => ?_⟩
    · exact absurd h (by simp [parsePrimaryF])
    · exact absurd h (by simp [parseLoopF])
    · exact absurd h (by simp [parseExprF])
  | succ n ih =>
    obtain ⟨ihP, ihL, ihE⟩ := ih
    have hPstep : ∀ ts ext e rem, parsePrimaryF (n + 1) ts = .ok (e, rem) →
        parsePrimaryF (n + 1) (ts ++ ext) = .ok (e, rem ++ ext) := by
      intro ts ext e rem h
      cases ts with
      | nil => exact absurd h (by simp [parsePrimaryF])
      | cons t ts' =>
        rw [List.cons_append]
        rw [show parsePrimaryF (n + 1) (t :: ts') =
          (if t = trueTok then .ok (.const true, ts')
          else if t = falseTok then .ok (.const false, ts')
          else if t = lcTrueTok then .ok (.const true, ts')
          else if t = lcFalseTok then .ok (.const false, ts')
          else if isalphaTok t then .ok (.var ⟨t⟩, ts')
          else if t = ['~'] then
            match parsePrimaryF n ts' with
            | .ok (e, rem) => .ok (.not e, rem)
            | .error er => .error er
          else if t = ['('] then
            match parseExprF n ts' with
            | .ok (e, rem) =>
              match rem with
              | r :: rem2 =>
                if r = [')'] then .ok (e, rem2) else .error .missingRParen
              | [] => .error .missingRParen
            | .error er => .error er
          else .error (.unknownToken ⟨t⟩)) from rfl] at h
        rw [show parsePrimaryF (n + 1) (t :: (ts' ++ ext)) =
          (if t = trueTok then .ok (.const true, ts' ++ ext)
          else if t = falseTok then .ok (.const false, ts' ++ ext)
          else if t = lcTrueTok then .ok (.const true, ts' ++ ext)
          else if t = lcFalseTok then .ok (.const false, ts' ++ ext)
          else if isalphaTok t then .ok (.var ⟨t⟩, ts' ++ ext)
          else if t = ['~'] then
            match parsePrimaryF n (ts' ++ ext) with
            | .ok (e, rem) => .ok (.not e, rem)
            | .error er => .error er
          else if t = ['('] then
            match parseExprF n (ts' ++ ext) with
            | .ok (e, rem) =>
              match rem with
              | r :: rem2 =>
                if r = [')'] then .ok (e, rem2) else .error .missingRParen
              | [] => .error .missingRParen
            | .error er => .error er
          else .error (.unknownToken ⟨t⟩)) from rfl]
        by_cases h1 : t = trueTok
        · simp only [if_pos h1] at h ⊢
          simp only [Except.ok.injEq, Prod.mk.injEq] at h
          rw [← h.1, ← h.2]
        · simp only [if_neg h1] at h ⊢
          by_cases h2 : t = falseTok
          · simp only [if_pos h2] at h ⊢
            simp only [Except.ok.injEq, Prod.mk.injEq] at h
            rw [← h.1, ← h.2]
          · simp only [if_neg h2] at h ⊢
            by_cases h3 : t = lcTrueTok
            · simp only [if_pos h3] at h ⊢
              simp only [Except.ok.injEq, Prod.mk.injEq] at h
              rw [← h.1, ← h.2]
            · simp only [if_neg h3] at h ⊢
              by_cases h4 : t = lcFalseTok
              · simp only [if_pos h4] at h ⊢
                simp only [Except.ok.injEq, Prod.mk.injEq] at h
                rw [← h.1, ← h.2]
              · simp only [if_neg h4] at h ⊢
                by_cases h5 : isalphaTok t = true
                · simp only [if_pos h5] at h ⊢
                  simp only [Except.ok.injEq, Prod.mk.injEq] at h
                  rw [← h.1, ← h.2]
                · simp only [if_neg h5] at h ⊢
                  by_cases h6 : t = ['~']
                  · simp only [if_pos h6] at h ⊢
                    cases hres : parsePrimaryF n ts' with
                    | ok pr =>
                      obtain ⟨e0, rem0⟩ := pr
                      rw [hres] at h
                      have h3 : (Except.ok ((Expression.not e0), rem0) :
                          Except PErr (Expression × List Tok)) = .ok (e, rem) := h
                      simp only [Except.ok.injEq, Prod.mk.injEq] at h3
                      rw [ihP ts' ext e0 rem0 hres]
                      rw [← h3.1, ← h3.2]
                    | error er =>
                      rw [hres] at h
                      exact absurd h (by simp)
                  · simp only [if_neg h6] at h ⊢
                    by_cases h7 : t = ['(']
                    · simp only [if_pos h7] at h ⊢
                      cases hres : parseExprF n ts' with
                      | ok pr =>
                        obtain ⟨e0, rem0⟩ := pr
                        rw [hres] at h
                        cases rem0 with
                        | nil => exact absurd h (by simp)
                        | cons r rem2 =>
                          by_cases h8 : r = [')']
                          · simp only [if_pos h8] at h
                            have h3 : (Except.ok (e0, rem2) :
                                Except PErr (Expression × List Tok)) = .ok (e, rem) := h
                            simp only [Except.ok.injEq, Prod.mk.injEq] at h3
                            rw [ihE ts' ext e0 r rem2 hres]
                            simp only [if_pos h8]
                            rw [← h3.1, ← h3.2]
                          · simp only [if_neg h8] at h
                            exact absurd h (by simp)
                      | error er =>
                        rw [hres] at h
                        exact absurd h (by simp)
                    · simp only [if_neg h7] at h ⊢
                      exact absurd h (by simp)
    have hLstep : ∀ (left : Expression) ts ext e c rest,
        parseLoopF (n + 1) left ts = .ok (e, c :: rest) →
        parseLoopF (n + 1) left (ts ++ ext) = .ok (e, c :: (rest ++ ext)) := by
      intro left ts ext e c rest h
      cases ts with
      | nil =>
        have h3 : (Except.ok (left, ([] : List Tok)) :
            Except PErr (Expression × List Tok)) = .ok (e, c :: rest) := h
        simp at h3
      | cons t ts' =>
        rw [List.cons_append]
        rw [show parseLoopF (n + 1) left (t :: ts') =
          (if t = ['&'] ∨ t = ['|'] then
            match parsePrimaryF n ts' with
            | .ok (right, rem) =>
              parseLoopF n (if t = ['&'] then .and left right else .or left right) rem
            | .error er => .error er
          else .ok (left, t :: ts')) from rfl] at h
        rw [show parseLoopF (n + 1) left (t :: (ts' ++ ext)) =
          (if t = ['&'] ∨ t = ['|'] then
            match parsePrimaryF n (ts' ++ ext) with
            | .ok (right, rem) =>
              parseLoopF n (if t = ['&'] then .and left right else .or left right) rem
            | .error er => .error er
          else .ok (left, t :: (ts' ++ ext))) from rfl]
        by_cases hop : t = ['&'] ∨ t = ['|']
        · simp only [if_pos hop] at h ⊢
          cases hres : parsePrimaryF n ts' with
          | ok pr =>
            obtain ⟨right, rem0⟩ := pr
            rw [hres] at h
            rw [ihP ts' ext right rem0 hres]
            exact ihL _ rem0 ext e c rest h
          | error er =>
            rw [hres] at h
            exact absurd h (by simp)
        · simp only [if_neg hop] at h ⊢
          have h3 : (Except.ok (left, t :: ts') :
              Except PErr (Expression × List Tok)) = .ok (e, c :: rest) := h
          simp only [Except.ok.injEq, Prod.mk.injEq, List.cons.injEq] at h3
          rw [← h3.1, ← h3.2.1, ← h3.2.2]
    have hEstep : ∀ ts ext e c rest, parseExprF (n + 1) ts = .ok (e, c :: rest) →
        parseExprF (n + 1) (ts ++ ext) = .ok (e, c :: (rest ++ ext)) := by
      intro ts ext e c rest h
      rw [show parseExprF (n + 1) ts =
        (match parsePrimaryF n ts with
        | .ok (left, rem) => parseLoopF n left rem
        | .error er => .error er) from rfl] at h
      rw [show parseExprF (n + 1) (ts ++ ext) =
        (match parsePrimaryF n (ts ++ ext) with
        | .ok (left, rem) => parseLoopF n left rem
        | .error er => .error er) from rfl]
      cases hres : parsePrimaryF n ts with
      | ok pr =>
        obtain ⟨left, rem0⟩ := pr
        rw [hres] at h
        rw [ihP ts ext left rem0 hres]
        exact ihL left rem0 ext e c rest h
      | error er =>
        rw [hres] at h
        exact absurd h (by simp)
    exact ⟨hPstep, hLstep, hEstep⟩

/-- A complete primary parse extends: with more tokens appended the same
primary is parsed and the appended tokens are the remainder. -/
theorem parsePrimaryT_ext (pa : List Tok) (A : Expression)
    (h : parsePrimaryT pa = .ok (A, [])) (fuel : Nat)
    (hf : 2 * pa.length + 1 ≤ fuel) (ext : List Tok) :
    parsePrimaryF fuel (pa ++ ext) = .ok (A, ext) := by
  have hstab := ((parserFacts pa).1 fuel (2 * pa.length + 1) hf le_rfl).1
  have h0 : parsePrimaryF fuel pa = .ok (A, []) := hstab.trans h
  have h1 := (parseExtAux fuel).1 pa ext A [] h0
  simpa using h1

theorem parsePrimaryT_fuel (pa : List Tok) (A : Expression)
    (h : parsePrimaryT pa = .ok (A, [])) (fuel : Nat)
    (hf : 2 * pa.length + 1 ≤ fuel) :
    parsePrimaryF fuel pa = .ok (A, []) :=
  (((parserFacts pa).1 fuel (2 * pa.length + 1) hf le_rfl).1).trans h

theorem chainAmpBar (pa pb pc : List Tok) (A B C : Expression)
    (hA : parsePrimaryT pa = .ok (A, []))
    (hB : parsePrimaryT pb = .ok (B, []))
    (hC : parsePrimaryT pc = .ok (C, []))
    (n : Nat) (hn : 2 * pa.length + 2 * pb.length + 2 * pc.length ≤ n) :
    parseExprF (n + 4) (pa ++ (['&'] :: (pb ++ (['|'] :: pc)))) =
      .ok (.or (.and A B) C, []) := by
  have s1 : parseExprF (n + 4) (pa ++ (['&'] :: (pb ++ (['|'] :: pc)))) =
      parseLoopF (n + 3) A (['&'] :: (pb ++ (['|'] :: pc))) := by
    rw [show parseExprF (n + 4) (pa ++ (['&'] :: (pb ++ (['|'] :: pc)))) =
      (match parsePrimaryF (n + 3) (pa ++ (['&'] :: (pb ++ (['|'] :: pc)))) with
      | .ok (left, rem) => parseLoopF (n + 3) left rem
      | .error er => .error er) from rfl]
    rw [parsePrimaryT_ext pa A hA (n + 3) (by omega) _]
  have s2 : parseLoopF (n + 3) A (['&'] :: (pb ++ (['|'] :: pc))) =
      parseLoopF (n + 2) (.and A B) (['|'] :: pc) := by
    rw [show parseLoopF (n + 3) A (['&'] :: (pb ++ (['|'] :: pc))) =
      (if (['&'] : Tok) = ['&'] ∨ (['&'] : Tok) = ['|'] then
        match parsePrimaryF (n + 2) (pb ++ (['|'] :: pc)) with
        | .ok (right, rem) =>
          parseLoopF (n + 2)
            (if (['&'] : Tok) = ['&'] then .and A right else .or A right) rem
        | .error er => .error er
      else .ok (A, ['&'] :: (pb ++ (['|'] :: pc)))) from rfl]
    rw [if_pos (Or.inl rfl : (['&'] : Tok) = ['&'] ∨ (['&'] : Tok) = ['|'])]
    rw [parsePrimaryT_ext pb B hB (n + 2) (by omega) _]
    rfl
  have s3 : parseLoopF (n + 2) (.and A B) (['|'] :: pc) =
      parseLoopF (n + 1) (.or (.and A B) C) [] := by
    rw [show parseLoopF (n + 2) (.and A B) (['|'] :: pc) =
      (if (['|'] : Tok) = ['&'] ∨ (['|'] : Tok) = ['|'] then
        match parsePrimaryF (n + 1) pc with
        | .ok (right, rem) =>
          parseLoopF (n + 1)
            (if (['|'] : Tok) = ['&'] then .and (.and A B) right
              else .or (.and A B) right) rem
        | .error er => .error er
      else .ok (.and A B, ['|'] :: pc)) from rfl]
    rw [if_pos (Or.inr rfl : (['|'] : Tok) = ['&'] ∨ (['|'] : Tok) = ['|'])]
    rw [parsePrimaryT_fuel pc C hC (n + 1) (by omega)]
    rfl
  have s4 : parseLoopF (n + 1) (.or (.and A B) C) [] =
      .ok (.or (.and A B) C, []) := rfl
  rw [s1, s2, s3, s4]

theorem chainBarAmp (pa pb pc : List Tok) (A B C : Expression)
    (hA : parsePrimaryT pa = .ok (A, []))
    (hB : parsePrimaryT pb = .ok (B, []))
    (hC : parsePrimaryT pc = .ok (C, []))
    (n : Nat) (hn : 2 * pa.length + 2 * pb.length + 2 * pc.length ≤ n) :
    parseExprF (n + 4) (pa ++ (['|'] :: (pb ++ (['&'] :: pc)))) =
      .ok (.and (.or A B) C, []) := by
  have s1 : parseExprF (n + 4) (pa ++ (['|'] :: (pb ++ (['&'] :: pc)))) =
      parseLoopF (n + 3) A (['|'] :: (pb ++ (['&'] :: pc))) := by
    rw [show parseExprF (n + 4) (pa ++ (['|'] :: (pb ++ (['&'] :: pc)))) =
      (match parsePrimaryF (n + 3) (pa ++ (['|'] :: (pb ++ (['&'] :: pc)))) with
      | .ok (left, rem) => parseLoopF (n + 3) left rem
      | .error er => .error er) from rfl]
    rw [parsePrimaryT_ext pa A hA (n + 3) (by omega) _]
  have s2 : parseLoopF (n + 3) A (['|'] :: (pb ++ (['&'] :: pc))) =
      parseLoopF (n + 2) (.or A B) (['&'] :: pc) := by
    rw [show parseLoopF (n + 3) A (['|'] :: (pb ++ (['&'] :: pc))) =
      (if (['|'] : Tok) = ['&'] ∨ (['|'] : Tok) = ['|'] then
        match parsePrimaryF (n + 2) (pb ++ (['&'] :: pc)) with
        | .ok (right, rem) =>
          parseLoopF (n + 2)
            (if (['|'] : Tok) = ['&'] then .and A right else .or A right) rem
        | .error er => .error er
      else .ok (A, ['|'] :: (pb ++ (['&'] :: pc)))) from rfl]
    rw [if_pos (Or.inr rfl : (['|'] : Tok) = ['&'] ∨ (['|'] : Tok) = ['|'])]
    rw [parsePrimaryT_ext pb B hB (n + 2) (by omega) _]
    rfl
  have s3 : parseLoopF (n + 2) (.or A B) (['&'] :: pc) =
      parseLoopF (n + 1) (.and (.or A B) C) [] := by
    rw [show parseLoopF (n + 2) (.or A B) (['&'] :: pc) =
      (if (['&'] : Tok) = ['&'] ∨ (['&'] : Tok) = ['|'] then
        match parsePrimaryF (n + 1) pc with
        | .ok (right, rem) =>
          parseLoopF (n + 1)
            (if (['&'] : Tok) = ['&'] then .and (.or A B) right
              else .or (.or A B) right) rem
        | .error er => .error er
      else .ok (.or A B, ['&'] :: pc)) from rfl]
    rw [if_pos (Or.inl rfl : (['&'] : Tok) = ['&'] ∨ (['&'] : Tok) = ['|'])]
    rw [parsePrimaryT_fuel pc C hC (n + 1) (by omega)]
    rfl
  have s4 : parseLoopF (n + 1) (.and (.or A B) C) [] =
      .ok (.and (.or A B) C, []) := rfl
  rw [s1, s2, s3, s4]

theorem chainTildeAmp (pa pb : List Tok) (A B : Expression)
    (hA : parsePrimaryT pa = .ok (A, []))
    (hB : parsePrimaryT pb = .ok (B, []))
    (n : Nat) (hn : 2 * pa.length + 2 * pb.length ≤ n) :
    parseExprF (n + 4) (['~'] :: (pa ++ (['&'] :: pb))) =
      .ok (.and (.not A) B, []) := by
  have hprim : parsePrimaryF (n + 3) (['~'] :: (pa ++ (['&'] :: pb))) =
      .ok (.not A, ['&'] :: pb) := by
    rw [show parsePrimaryF (n + 3) (['~'] :: (pa ++ (['&'] :: pb))) =
      (if (['~'] : Tok) = trueTok then .ok (.const true, pa ++ (['&'] :: pb))
      else if (['~'] : Tok) = falseTok then .ok (.const false, pa ++ (['&'] :: pb))
      else if (['~'] : Tok) = lcTrueTok then .ok (.const true, pa ++ (['&'] :: pb))
      else if (['~'] : Tok) = lcFalseTok then .ok (.const false, pa ++ (['&'] :: pb))
      else if isalphaTok ['~'] then .ok (.var ⟨['~']⟩, pa ++ (['&'] :: pb))
      else if (['~'] : Tok) = ['~'] then
        match parsePrimaryF (n + 2) (pa ++ (['&'] :: pb)) with
        | .ok (e, rem) => .ok (.not e, rem)
        | .error er => .error er
      else if (['~'] : Tok) = ['('] then
        match parseExprF (n + 2) (pa ++ (['&'] :: pb)) with
        | .ok (e, rem) =>
          match rem with
          | r :: rem2 =>
            if r = [')'] then .ok (e, rem2) else .error .missingRParen
          | [] => .error .missingRParen
        | .error er => .error er
      else .error (.unknownToken ⟨['~']⟩)) from rfl]
    rw [if_neg (by decide), if_neg (by decide), if_neg (by decide),
      if_neg (by decide), if_neg (by decide),
      if_pos (rfl : (['~'] : Tok) = ['~'])]
    rw [parsePrimaryT_ext pa A hA (n + 2) (by omega) _]
  have s1 : parseExprF (n + 4) (['~'] :: (pa ++ (['&'] :: pb))) =
      parseLoopF (n + 3) (.not A) (['&'] :: pb) := by
    rw [show parseExprF (n + 4) (['~'] :: (pa ++ (['&'] :: pb))) =
      (match parsePrimaryF (n + 3) (['~'] :: (pa ++ (['&'] :: pb))) with
      | .ok (left, rem) => parseLoopF (n + 3) left rem
      | .error er => .error er) from rfl]
    rw [hprim]
  have s2 : parseLoopF (n + 3) (.not A) (['&'] :: pb) =
      parseLoopF (n + 2) (.and (.not A) B) [] := by
    rw [show parseLoopF (n + 3) (.not A) (['&'] :: pb) =
      (if (['&'] : Tok) = ['&'] ∨ (['&'] : Tok) = ['|'] then
        match parsePrimaryF (n + 2) pb with
        | .ok (right, rem) =>
          parseLoopF (n + 2)
            (if (['&'] : Tok) = ['&'] then .and (.not A) right
              else .or (.not A) right) rem
        | .error er => .error er
      else .ok (.not A, ['&'] :: pb)) from rfl]
    rw [if_pos (Or.inl rfl : (['&'] : Tok) = ['&'] ∨ (['&'] : Tok) = ['|'])]
    rw [parsePrimaryT_fuel pb B hB (n + 2) (by omega)]
    rfl
  have s3 : parseLoopF (n + 2) (.and (.not A) B) [] =
      .ok (.and (.not A) B, []) := rfl
  rw [s1, s2, s3]

theorem specIsEM_eq (e : Expression) : specIsExcludedMiddle e = isExcludedMiddle e := rfl

theorem specIsContra_eq (e : Expression) : specIsContradiction e = isContradiction e := rfl

theorem andRules_eq_spec (l r : Expression) : andRules l r = specAndRules l r := by
  unfold andRules specAndRules
  simp only [specIsEM_eq]
  by_cases h1 : l = Expression.const false
  · rw [if_pos h1, if_pos (Or.inl h1)]
  · rw [if_neg h1]
    by_cases h2 : r = Expression.const false
    · rw [if_pos h2, if_pos (Or.inr h2)]
    · rw [if_neg h2,
        if_neg (show ¬(l = Expression.const false ∨ r = Expression.const false)
          from fun h => h.elim h1 h2)]

theorem orRules_eq_spec (l r : Expression) : orRules l r = specOrRules l r := by
  unfold orRules specOrRules
  simp only [specIsContra_eq]
  by_cases h1 : l = Expression.const true
  · rw [if_pos h1, if_pos (Or.inl h1)]
  · rw [if_neg h1]
    by_cases h2 : r = Expression.const true
    · rw [if_pos h2, if_pos (Or.inr h2)]
    · rw [if_neg h2,
        if_neg (show ¬(l = Expression.const true ∨ r = Expression.const true)
          from fun h => h.elim h1 h2)]

/-- The fixed-point driver always returns after at most two passes: one pass
of `simplify` is already idempotent, so the 10-iteration cap is never the
reason the loop stops. -/
theorem simplify_logic_expression_eq (e : Expression) :
    simplify_logic_expression e = simplify e := by
  show (if toStr (simplify e) = toStr e then simplify e
    else simpLoopF 9 (simplify e)) = simplify e
  by_cases h : toStr (simplify e) = toStr e
  · rw [if_pos h]
  · rw [if_neg h]
    show (if toStr (simplify (simplify e)) = toStr (simplify e) then
      simplify (simplify e) else simpLoopF 8 (simplify (simplify e))) = simplify e
    rw [simplify_idem, if_pos rfl]

/-- C1.  `simplify` recursively simplifies children first and then applies
exactly the spec's per-variant rules in the spec's stated order: `Variable`
and `Constant` are returned as-is; `Not` eliminates double negation by
re-simplifying the inner operand, negates constants, and otherwise rebuilds;
`And`/`Or` dispatch on their simplified sides through `specAndRules` /
`specOrRules`, the rule lists transcribed from the spec. -/
theorem C1_bottom_up_rule_order (a : String) (b : Bool) (x l r : Expression) :
    simplify (.var a) = .var a ∧
    simplify (.const b) = .const b ∧
    simplify (.not x) = (match simplify x with
      | .not y => simplify y
      | .const v => .const (!v)
      | s => .not s) ∧
    simplify (.and l r) = specAndRules (simplify l) (simplify r) ∧
    simplify (.or l r) = specOrRules (simplify l) (simplify r) :=
  ⟨simplify_var a, simplify_const b, simplify_not x,
    (simplify_and l r).trans (andRules_eq_spec _ _),
    (simplify_or l r).trans (orRules_eq_spec _ _)⟩

/-- C2.  Simplification preserves logical meaning: under every assignment of
booleans to variable names, `simplify e` evaluates exactly as `e`, and the
individual `And`/`Or` rewrite dispatches preserve the conjunction and
disjunction of their operands' values. -/
theorem C2_semantics_preserved (ρ : String → Bool) (e l r : Expression) :
    evalExpr ρ (simplify e) = evalExpr ρ e ∧
    evalExpr ρ (andRules l r) = (evalExpr ρ l && evalExpr ρ r) ∧
    evalExpr ρ (orRules l r) = (evalExpr ρ l || evalExpr ρ r) :=
  ⟨evalExpr_simplify ρ e, evalExpr_andRules ρ l r, evalExpr_orRules ρ l r⟩

/-- C3.  Simplification is idempotent up to rendering — indeed structurally:
a second pass renders (and is) exactly the first pass's result, both for the
one-pass `simplify` and for the public fixed-point driver. -/
theorem C3_idempotent_rendering (e : Expression) :
    toStr (simplify (simplify e)) = toStr (simplify e) ∧
    toStr (simplify_logic_expression (simplify_logic_expression e)) =
      toStr (simplify_logic_expression e) := by
  constructor
  · rw [simplify_idem]
  · rw [simplify_logic_expression_eq, simplify_logic_expression_eq, simplify_idem]

/-- C4.  The fixed-point driver repeatedly applies `simplify`, comparing the
rendered strings of consecutive iterates: it returns the first iterate that
renders like its predecessor if that happens within the 10-iteration cap,
and otherwise silently returns the 10th iterate (the last computed tree)
without any error. -/
theorem C4_fixed_point_driver (e : Expression) :
    (∃ k, k < 10 ∧
      (∀ j, j < k → toStr (simpIter (j + 1) e) ≠ toStr (simpIter j e)) ∧
      toStr (simpIter (k + 1) e) = toStr (simpIter k e) ∧
      simplify_logic_expression e = simpIter (k + 1) e) ∨
    ((∀ j, j < 10 → toStr (simpIter (j + 1) e) ≠ toStr (simpIter j e)) ∧
      simplify_logic_expression e = simpIter 10 e) :=
  simpLoopF_char 10 e

/-- C5.  `simplify` is total: the fuel-indexed recursion stabilises at fuel
`esize e` (any larger fuel computes the same result — in particular the
double-negation rule's nested call terminates), and a pass never grows the
tree, which is the measure making that nested recursion well-founded. -/
theorem C5_simplify_total (e : Expression) (n : Nat) (h : esize e ≤ n) :
    simplifyF n e = simplify e ∧ esize (simplify e) ≤ esize e :=
  ⟨simplifyF_eq_simplify n e h, esize_simplifyF (esize e) e⟩

/-- Witness for C5 at the double-negation input `not (not A)` with fuel 5. -/
theorem C5_simplify_total_witness :
    simplifyF 5 (.not (.not (.var "A"))) = simplify (.not (.not (.var "A"))) ∧
    esize (simplify (.not (.not (.var "A")))) ≤ esize (.not (.not (.var "A"))) :=
  C5_simplify_total (.not (.not (.var "A"))) 5 (by decide)

/-- C6.  `&` and `|` are parsed at one precedence level by a left fold: for
any three complete primaries, `A & B | C` parses as `Or(And(A,B),C)` and
`A | B & C` parses as `And(Or(A,B),C)`; `~` binds only the immediately
following primary, so `~A & B` parses as `And(Not(A),B)`.  The last three
conjuncts instantiate this on the concrete texts. -/
theorem C6_flat_precedence (pa pb pc : List Tok) (A B C : Expression)
    (hA : parsePrimaryT pa = .ok (A, []))
    (hB : parsePrimaryT pb = .ok (B, []))
    (hC : parsePrimaryT pc = .ok (C, [])) :
    parseExprT (pa ++ (['&'] :: (pb ++ (['|'] :: pc)))) =
      .ok (.or (.and A B) C, []) ∧
    parseExprT (pa ++ (['|'] :: (pb ++ (['&'] :: pc)))) =
      .ok (.and (.or A B) C, []) ∧
    parseExprT (['~'] :: (pa ++ (['&'] :: pb))) = .ok (.and (.not A) B, []) ∧
    parse_expression "A & B | C" =
      .ok (.or (.and (.var "A") (.var "B")) (.var "C")) ∧
    parse_expression "A | B & C" =
      .ok (.and (.or (.var "A") (.var "B")) (.var "C")) ∧
    parse_expression "~A & B" = .ok (.and (.not (.var "A")) (.var "B")) := by
  refine ⟨?_, ?_, ?_, rfl, rfl, rfl⟩
  · have hlen : 2 * (pa ++ (['&'] :: (pb ++ (['|'] :: pc)))).length + 2 =
        (2 * pa.length + 2 * pb.length + 2 * pc.length + 2) + 4 := by
      simp only [List.length_append, List.length_cons]
      omega
    unfold parseExprT
    rw [hlen]
    exact chainAmpBar pa pb pc A B C hA hB hC _ (by omega)
  · have hlen : 2 * (pa ++ (['|'] :: (pb ++ (['&'] :: pc)))).length + 2 =
        (2 * pa.length + 2 * pb.length + 2 * pc.length + 2) + 4 := by
      simp only [List.length_append, List.length_cons]
      omega
    unfold parseExprT
    rw [hlen]
    exact chainBarAmp pa pb pc A B C hA hB hC _ (by omega)
  · have hlen : 2 * ((['~'] : Tok) :: (pa ++ (['&'] :: pb))).length + 2 =
        (2 * pa.length + 2 * pb.length + 2) + 4 := by
      simp only [List.length_append, List.length_cons]
      omega
    unfold parseExprT
    rw [hlen]
    exact chainTildeAmp pa pb A B hA hB _ (by omega)

/-- Witness for C6 at the one-token primaries `A`, `B`, `C`. -/
theorem C6_flat_precedence_witness :
    parseExprT ([['A']] ++ (['&'] :: ([['B']] ++ (['|'] :: [['C']])))) =
      .ok (.or (.and (.var "A") (.var "B")) (.var "C"), []) ∧
    parseExprT ([['A']] ++ (['|'] :: ([['B']] ++ (['&'] :: [['C']])))) =
      .ok (.and (.or (.var "A") (.var "B")) (.var "C"), []) :=
  ⟨(C6_flat_precedence [['A']] [['B']] [['C']] (.var "A") (.var "B") (.var "C")
      rfl rfl rfl).1,
    (C6_flat_precedence [['A']] [['B']] [['C']] (.var "A") (.var "B") (.var "C")
      rfl rfl rfl).2.1⟩

/-- C7.  `parse_expression` is total and fails only by one wrapped
`ParseError`: it either returns a complete tree, or returns an error message
of the form `"Ошибка парсинга: <inner>"` whose inner message is one of the
four `ValueError` raises of the source — empty token stream where a primary
is expected, unmatched opening parenthesis, unrecognized token, or leftover
tokens after a complete expression. -/
theorem C7_parse_error_taxonomy (s : String) :
    (∃ t, parse_expression s = .ok t) ∨
    (∃ m, parse_expression s = .error ("Ошибка парсинга: " ++ m) ∧
      (m = "Неправильное выражение" ∨ m = "Ожидалась закрывающая скобка" ∨
       (∃ tk, m = "Неизвестный токен: " ++ tk) ∨
       m = "Лишние токены в выражении")) := by
  have hunfold : parse_expression s =
      (match parseExprF (2 * (tokenize (replaceAll orPat ['|'] (replaceAll andPat ['&']
          (replaceAll notPat ['~'] (s.data.filter (fun c => c ≠ ' ')))))).length + 2)
        (tokenize (replaceAll orPat ['|'] (replaceAll andPat ['&']
          (replaceAll notPat ['~'] (s.data.filter (fun c => c ≠ ' ')))))) with
      | .ok (e, []) => .ok e
      | .ok (_, _ :: _) => .error ("Ошибка парсинга: " ++ "Лишние токены в выражении")
      | .error er => .error ("Ошибка парсинга: " ++ pmsg er)) := rfl
  set tokens := tokenize (replaceAll orPat ['|'] (replaceAll andPat ['&']
    (replaceAll notPat ['~'] (s.data.filter (fun c => c ≠ ' '))))) with htok
  have hnf := ((parserFacts tokens).2.2 (2 * tokens.length + 2)
    (2 * tokens.length + 2) le_rfl le_rfl).2.2
  cases hres : parseExprF (2 * tokens.length + 2) tokens with
  | ok pr =>
    obtain ⟨e, rem⟩ := pr
    cases rem with
    | nil => exact Or.inl ⟨e, by rw [hunfold, hres]⟩
    | cons a b =>
      exact Or.inr ⟨"Лишние токены в выражении", by rw [hunfold, hres],
        Or.inr (Or.inr (Or.inr rfl))⟩
  | error er =>
    rw [hres] at hnf
    cases er with
    | emptyPrimary =>
      exact Or.inr ⟨"Неправильное выражение", by rw [hunfold, hres]; rfl, Or.inl rfl⟩
    | missingRParen =>
      exact Or.inr ⟨"Ожидалась закрывающая скобка", by rw [hunfold, hres]; rfl,
        Or.inr (Or.inl rfl)⟩
    | unknownToken tk =>
      exact Or.inr ⟨"Неизвестный токен: " ++ tk, by rw [hunfold, hres]; rfl,
        Or.inr (Or.inr (Or.inl ⟨tk, rfl⟩))⟩
    | fuelOut => exact absurd rfl hnf

/-- C10 counterexample.  `And(a, And(a, b))` is its own `simplify` fixed
point, so it is a simplified form; its rendering `"a and a and b"` re-parses
(by the left fold) to the differently associated `And(And(a,a),b)`, whose
simplification renders `"a and b"` — render→parse→simplify→render is not a
no-op on this simplified form, refuting the claim. -/
theorem C10_roundtrip_counterexample :
    simplify (.and (.var "a") (.and (.var "a") (.var "b"))) =
      .and (.var "a") (.and (.var "a") (.var "b")) ∧
    toStr (.and (.var "a") (.and (.var "a") (.var "b"))) = "a and a and b" ∧
    parse_expression "a and a and b" =
      .ok (.and (.and (.var "a") (.var "a")) (.var "b")) ∧
    toStr (simplify (.and (.and (.var "a") (.var "a")) (.var "b"))) = "a and b" ∧
    ("a and b" : String) ≠ "a and a and b" :=
  ⟨rfl, rfl, rfl, rfl, by decide⟩

set_option linter.unusedVariables false in
/-- C10 amended.  Round-trip stability holds exactly when re-parsing the
rendering recovers the simplified tree itself: if
`parse_expression (toStr (simplify e))` returns `simplify e`, then
simplifying the parsed tree renders identically.  (In general the renderer
drops associativity information and `Or._str` adds no inner parentheses, so
the flat left-fold parser may rebuild a different tree that simplifies
further — see the counterexample.) -/
theorem C10_roundtrip_on_reparse_fixed (e t : Expression)
    (hparse : parse_expression (toStr (simplify e)) = .ok t)
    (hsame : t = simplify e) :
    toStr (simplify t) = toStr (simplify e) := by
  rw [hsame, simplify_idem]

/-- Witness for C10 amended at `e = Variable "A"`. -/
theorem C10_roundtrip_on_reparse_fixed_witness :
    toStr (simplify (.var "A")) = toStr (simplify (.var "A")) :=
  C10_roundtrip_on_reparse_fixed (.var "A") (.var "A") rfl rfl

theorem hasSub_iff_parts (pat : List Char) : ∀ (s : List Char),
    hasSub pat s = true ↔ pat <:+: s := by
  intro s
  induction s with
  | nil => simp [hasSub, List.isEmpty_iff]
  | cons c cs ih =>
    simp [hasSub, Bool.or_eq_true, List.isPrefixOf_iff_prefix, ih,
      List.infix_cons_iff]

theorem infix_filter_of_no_space (pat s : List Char)
    (hpat : ∀ c ∈ pat, c ≠ ' ') (h : pat <:+: s) :
    pat <:+: s.filter (fun c => c ≠ ' ') := by
  obtain ⟨u, v, huv⟩ := h
  have hfp : pat.filter (fun c => c ≠ ' ') = pat :=
    List.filter_eq_self.mpr (fun a ha => by simpa using hpat a ha)
  refine ⟨u.filter (fun c => c ≠ ' '), v.filter (fun c => c ≠ ' '), ?_⟩
  rw [← huv, List.filter_append, List.filter_append, hfp]

theorem replaceAllF_length_le (pat rep : List Char)
    (hrep : rep.length ≤ pat.length) : ∀ (n : Nat) (s : List Char),
    (replaceAllF pat rep n s).length ≤ s.length := by
  intro n
  induction n with
  | zero => intro s; exact le_rfl
  | succ n ih =>
    intro s
    cases s with
    | nil => simp [replaceAllF]
    | cons c cs =>
      show (if pat ≠ [] ∧ pat.isPrefixOf (c :: cs) then
          rep ++ replaceAllF pat rep n ((c :: cs).drop pat.length)
        else c :: replaceAllF pat rep n cs).length ≤ (c :: cs).length
      by_cases h : pat ≠ [] ∧ pat.isPrefixOf (c :: cs)
      · rw [if_pos h]
        have hple : pat.length ≤ (c :: cs).length :=
          (List.isPrefixOf_iff_prefix.mp h.2).length_le
        have hrec := ih ((c :: cs).drop pat.length)
        simp only [List.length_append, List.length_drop, List.length_cons] at *
        omega
      · rw [if_neg h]
        have hrec := ih cs
        simp only [List.length_cons]
        omega

theorem replaceAllF_shrink (pat rep : List Char)
    (hrep : rep.length < pat.length) : ∀ (n : Nat) (s : List Char),
    s.length ≤ n → hasSub pat s = true →
    (replaceAllF pat rep n s).length < s.length := by
  intro n
  induction n with
  | zero =>
    intro s hn hsub
    have : s = [] := List.length_eq_zero.mp (Nat.le_zero.mp hn)
    subst this
    have : pat = [] := by simpa [hasSub, List.isEmpty_iff] using hsub
    subst this
    simp at hrep
  | succ n ih =>
    intro s hn hsub
    cases s with
    | nil =>
      have : pat = [] := by simpa [hasSub, List.isEmpty_iff] using hsub
      subst this
      simp at hrep
    | cons c cs =>
      show (if pat ≠ [] ∧ pat.isPrefixOf (c :: cs) then
          rep ++ replaceAllF pat rep n ((c :: cs).drop pat.length)
        else c :: replaceAllF pat rep n cs).length < (c :: cs).length
      by_cases h : pat ≠ [] ∧ pat.isPrefixOf (c :: cs)
      · rw [if_pos h]
        have hple : pat.length ≤ (c :: cs).length :=
          (List.isPrefixOf_iff_prefix.mp h.2).length_le
        have hp1 : 1 ≤ pat.length := by
          cases pat with
          | nil => exact absurd rfl h.1
          | cons p ps => simp
        have hrec := replaceAllF_length_le pat rep (le_of_lt hrep) n
          ((c :: cs).drop pat.length)
        simp only [List.length_append, List.length_drop, List.length_cons] at *
        omega
      · rw [if_neg h]
        by_cases hpat : pat = []
        · subst hpat; simp at hrep
        · have hpre : pat.isPrefixOf (c :: cs) = false := by
            by_contra hc
            exact h ⟨hpat, by simpa using hc⟩
          have hcs : hasSub pat cs = true := by
            have := hsub
            simp only [hasSub, hpre, Bool.false_or] at this
            exact this
          have hlencs : cs.length ≤ n := by
            simp only [List.length_cons] at hn
            omega
          have hrec := ih cs hlencs hcs
          simp only [List.length_cons]
          omega

theorem replaceAllF_eq_or_shrink (pat rep : List Char)
    (hrep : rep.length < pat.length) : ∀ (n : Nat) (s : List Char),
    replaceAllF pat rep n s = s ∨
      (replaceAllF pat rep n s).length < s.length := by
  intro n
  induction n with
  | zero => intro s; exact Or.inl rfl
  | succ n ih =>
    intro s
    cases s with
    | nil => exact Or.inl rfl
    | cons c cs =>
      have hunf : replaceAllF pat rep (n + 1) (c :: cs) =
          (if pat ≠ [] ∧ pat.isPrefixOf (c :: cs) then
            rep ++ replaceAllF pat rep n ((c :: cs).drop pat.length)
          else c :: replaceAllF pat rep n cs) := rfl
      rw [hunf]
      by_cases h : pat ≠ [] ∧ pat.isPrefixOf (c :: cs)
      · rw [if_pos h]
        refine Or.inr ?_
        have hple : pat.length ≤ (c :: cs).length :=
          (List.isPrefixOf_iff_prefix.mp h.2).length_le
        have hp1 : 1 ≤ pat.length := by
          cases pat with
          | nil => exact absurd rfl h.1
          | cons p ps => simp
        have hrec := replaceAllF_length_le pat rep (le_of_lt hrep) n
          ((c :: cs).drop pat.length)
        simp only [List.length_append, List.length_drop, List.length_cons] at *
        omega
      · rw [if_neg h]
        rcases ih cs with he | hlt
        · exact Or.inl (by rw [he])
        · refine Or.inr ?_
          simp only [List.length_cons]
          omega

theorem replaceAll_length_le (pat rep s : List Char)
    (hrep : rep.length ≤ pat.length) :
    (replaceAll pat rep s).length ≤ s.length :=
  replaceAllF_length_le pat rep hrep s.length s

theorem replaceAll_shrink (pat rep s : List Char)
    (hrep : rep.length < pat.length) (hsub : hasSub pat s = true) :
    (replaceAll pat rep s).length < s.length :=
  replaceAllF_shrink pat rep hrep s.length s le_rfl hsub

theorem replaceAll_eq_or_shrink (pat rep s : List Char)
    (hrep : rep.length < pat.length) :
    replaceAll pat rep s = s ∨ (replaceAll pat rep s).length < s.length :=
  replaceAllF_eq_or_shrink pat rep hrep s.length s

/-- If the (space-stripped) input contains one of the keywords, the three
replacement passes strictly shorten it. -/
theorem processed_shrink (s : List Char)
    (h : hasSub notPat s = true ∨ hasSub andPat s = true ∨
      hasSub orPat s = true) :
    (replaceAll orPat ['|'] (replaceAll andPat ['&']
      (replaceAll notPat ['~'] s))).length < s.length := by
  have hle2 : (replaceAll andPat ['&'] (replaceAll notPat ['~'] s)).length ≤
      (replaceAll notPat ['~'] s).length :=
    replaceAll_length_le _ _ _ (by decide)
  have hle3 : (replaceAll orPat ['|'] (replaceAll andPat ['&']
      (replaceAll notPat ['~'] s))).length ≤
      (replaceAll andPat ['&'] (replaceAll notPat ['~'] s)).length :=
    replaceAll_length_le _ _ _ (by decide)
  rcases h with h | h | h
  · have h1 : (replaceAll notPat ['~'] s).length < s.length :=
      replaceAll_shrink _ _ _ (by decide) h
    omega
  · rcases replaceAll_eq_or_shrink notPat ['~'] s (by decide) with he | hlt
    · have h2 : (replaceAll andPat ['&'] (replaceAll notPat ['~'] s)).length <
          (replaceAll notPat ['~'] s).length :=
        replaceAll_shrink _ _ _ (by decide) (by rw [he]; exact h)
      have ha : (replaceAll notPat ['~'] s).length = s.length := by rw [he]
      omega
    · omega
  · rcases replaceAll_eq_or_shrink notPat ['~'] s (by decide) with he1 | hlt1
    · have ha1 : (replaceAll notPat ['~'] s).length = s.length := by rw [he1]
      rcases replaceAll_eq_or_shrink andPat ['&']
        (replaceAll notPat ['~'] s) (by decide) with he2 | hlt2
      · have h3 : (replaceAll orPat ['|'] (replaceAll andPat ['&']
            (replaceAll notPat ['~'] s))).length <
            (replaceAll andPat ['&'] (replaceAll notPat ['~'] s)).length :=
          replaceAll_shrink _ _ _ (by decide) (by rw [he2, he1]; exact h)
        have ha2 : (replaceAll andPat ['&'] (replaceAll notPat ['~'] s)).length =
            (replaceAll notPat ['~'] s).length := by rw [he2]
        omega
      · omega
    · omega

/-- Every token the scanner produces is at most as long as the scanned
string. -/
theorem tokenizeF_token_length : ∀ (n : Nat) (s : List Char),
    s.length ≤ n → ∀ t ∈ tokenizeF n s, t.length ≤ s.length := by
  intro n
  induction n with
  | zero => intro s _ t ht; simp [tokenizeF] at ht
  | succ n ih =>
    intro s hn t ht
    cases s with
    | nil => simp [tokenizeF] at ht
    | cons c cs =>
      have hlencs : cs.length ≤ n := by
        simp only [List.length_cons] at hn
        omega
      have hunf : tokenizeF (n + 1) (c :: cs) =
          (if c = 'T' ∧ cs.take 3 = ['r', 'u', 'e'] then
            trueTok :: tokenizeF n (cs.drop 3)
          else if c = 'F' ∧ cs.take 4 = ['a', 'l', 's', 'e'] then
            falseTok :: tokenizeF n (cs.drop 4)
          else if c.isAlpha then
            (c :: cs.takeWhile Char.isAlpha) ::
              tokenizeF n (cs.dropWhile Char.isAlpha)
          else if c = '~' ∨ c = '&' ∨ c = '|' ∨ c = '(' ∨ c = ')' then
            [c] :: tokenizeF n cs
          else tokenizeF n cs) := rfl
      rw [hunf] at ht
      by_cases h1 : c = 'T' ∧ cs.take 3 = ['r', 'u', 'e']
      · rw [if_pos h1] at ht
        have hcs3 : 3 ≤ cs.length := by
          have h9 := congrArg List.length h1.2
          simp only [List.length_take, List.length_cons, List.length_nil] at h9
          omega
        rcases List.mem_cons.mp ht with rfl | hmem
        · show trueTok.length ≤ (c :: cs).length
          simp only [trueTok, List.length_cons, List.length_nil]
          omega
        · have h0 := ih (cs.drop 3) (by simp only [List.length_drop]; omega) t hmem
          simp only [List.length_drop] at h0
          simp only [List.length_cons]
          omega
      · rw [if_neg h1] at ht
        by_cases h2 : c = 'F' ∧ cs.take 4 = ['a', 'l', 's', 'e']
        · rw [if_pos h2] at ht
          have hcs4 : 4 ≤ cs.length := by
            have h9 := congrArg List.length h2.2
            simp only [List.length_take, List.length_cons, List.length_nil] at h9
            omega
          rcases List.mem_cons.mp ht with rfl | hmem
          · show falseTok.length ≤ (c :: cs).length
            simp only [falseTok, List.length_cons, List.length_nil]
            omega
          · have h0 := ih (cs.drop 4) (by simp only [List.length_drop]; omega) t hmem
            simp only [List.length_drop] at h0
            simp only [List.length_cons]
            omega
        · rw [if_neg h2] at ht
          by_cases h3 : c.isAlpha = true
          · rw [if_pos h3] at ht
            have htw : (cs.takeWhile Char.isAlpha).length ≤ cs.length :=
              (List.takeWhile_sublist (l := cs) Char.isAlpha).length_le
            have hdw : (cs.dropWhile Char.isAlpha).length ≤ cs.length :=
              (List.dropWhile_sublist (l := cs) Char.isAlpha).length_le
            rcases List.mem_cons.mp ht with rfl | hmem
            · simp only [List.length_cons]
              omega
            · have := ih (cs.dropWhile Char.isAlpha) (by omega) t hmem
              simp only [List.length_cons]
              omega
          · rw [if_neg h3] at ht
            by_cases h4 : c = '~' ∨ c = '&' ∨ c = '|' ∨ c = '(' ∨ c = ')'
            · rw [if_pos h4] at ht
              rcases List.mem_cons.mp ht with rfl | hmem
              · simp
              · have := ih cs hlencs t hmem
                simp only [List.length_cons]
                omega
            · rw [if_neg h4] at ht
              have := ih cs hlencs t ht
              simp only [List.length_cons]
              omega

theorem tokenize_token_length (s : List Char) (t : Tok)
    (ht : t ∈ tokenize s) : t.length ≤ s.length :=
  tokenizeF_token_length s.length s le_rfl t ht

/-- A `Variable` returned by the parser carries as its name one of the
scanner's tokens (the loop's accumulator can only be a `Variable` when no
operator was consumed). -/
theorem parseVarAux : ∀ (n : Nat),
    (∀ ts rem nm, parsePrimaryF n ts = .ok (.var nm, rem) → nm.data ∈ ts) ∧
    (∀ (left : Expression) ts rem nm,
      parseLoopF n left ts = .ok (.var nm, rem) → left = .var nm) ∧
    (∀ ts rem nm, parseExprF n ts = .ok (.var nm, rem) → nm.data ∈ ts) := by
  intro n
  induction n with
  | zero =>
    refine ⟨fun ts rem nm h => absurd h (by simp [parsePrimaryF]),
      fun left ts rem nm h => absurd h (by simp [parseLoopF]),
      fun ts rem nm h => absurd h (by simp [parseExprF])⟩
  | succ n ih =>
    obtain ⟨ihP, ihL, ihE⟩ := ih
    have hP : ∀ ts rem nm, parsePrimaryF (n + 1) ts = .ok (.var nm, rem) →
        nm.data ∈ ts := by
      intro ts rem nm h
      cases ts with
      | nil => exact absurd h (by simp [parsePrimaryF])
      | cons t ts' =>
        rw [show parsePrimaryF (n + 1) (t :: ts') =
          (if t = trueTok then .ok (.const true, ts')
          else if t = falseTok then .ok (.const false, ts')
          else if t = lcTrueTok then .ok (.const true, ts')
          else if t = lcFalseTok then .ok (.const false, ts')
          else if isalphaTok t then .ok (.var ⟨t⟩, ts')
          else if t = ['~'] then
            match parsePrimaryF n ts' with
            | .ok (e, rem) => .ok (.not e, rem)
            | .error er => .error er
          else if t = ['('] then
            match parseExprF n ts' with
            | .ok (e, rem) =>
              match rem with
              | r :: rem2 =>
                if r = [')'] then .ok (e, rem2) else .error .missingRParen
              | [] => .error .missingRParen
            | .error er => .error er
          else .error (.unknownToken ⟨t⟩)) from rfl] at h
        by_cases h1 : t = trueTok
        · rw [if_pos h1] at h; simp at h
        · rw [if_neg h1] at h
          by_cases h2 : t = falseTok
          · rw [if_pos h2] at h; simp at h
          · rw [if_neg h2] at h
            by_cases h3 : t = lcTrueTok
            · rw [if_pos h3] at h; simp at h
            · rw [if_neg h3] at h
              by_cases h4 : t = lcFalseTok
              · rw [if_pos h4] at h; simp at h
              · rw [if_neg h4] at h
                by_cases h5 : isalphaTok t = true
                · rw [if_pos h5] at h
                  simp only [Except.ok.injEq, Prod.mk.injEq,
                    Expression.var.injEq] at h
                  rw [← h.1]
                  exact List.mem_cons_self t ts'
                · rw [if_neg h5] at h
                  by_cases h6 : t = ['~']
                  · rw [if_pos h6] at h
                    cases hres : parsePrimaryF n ts' with
                    | ok pr =>
                      obtain ⟨e0, rem0⟩ := pr
                      rw [hres] at h
                      simp at h
                    | error er => rw [hres] at h; simp at h
                  · rw [if_neg h6] at h
                    by_cases h7 : t = ['(']
                    · rw [if_pos h7] at h
                      cases hres : parseExprF n ts' with
                      | ok pr =>
                        obtain ⟨e0, rem0⟩ := pr
                        rw [hres] at h
                        cases rem0 with
                        | nil => simp at h
                        | cons r rem2 =>
                          have h9 : (if r = [')'] then
                              (Except.ok (e0, rem2) :
                                Except PErr (Expression × List Tok))
                            else .error .missingRParen) = .ok (.var nm, rem) := h
                          by_cases h8 : r = [')']
                          · rw [if_pos h8] at h9
                            simp only [Except.ok.injEq, Prod.mk.injEq] at h9
                            refine List.mem_cons_of_mem t (ihE ts' (r :: rem2) nm ?_)
                            rw [hres, h9.1]
                          · rw [if_neg h8] at h9; simp at h9
                      | error er => rw [hres] at h; simp at h
                    · rw [if_neg h7] at h; simp at h
    have hL : ∀ (left : Expression) ts rem nm,
        parseLoopF (n + 1) left ts = .ok (.var nm, rem) → left = .var nm := by
      intro left ts rem nm h
      cases ts with
      | nil =>
        have h3 : (Except.ok (left, ([] : List Tok)) :
            Except PErr (Expression × List Tok)) = .ok (.var nm, rem) := h
        simp only [Except.ok.injEq, Prod.mk.injEq] at h3
        exact h3.1
      | cons t ts' =>
        rw [show parseLoopF (n + 1) left (t :: ts') =
          (if t = ['&'] ∨ t = ['|'] then
            match parsePrimaryF n ts' with
            | .ok (right, rem) =>
              parseLoopF n (if t = ['&'] then .and left right else .or left right) rem
            | .error er => .error er
          else .ok (left, t :: ts')) from rfl] at h
        by_cases hop : t = ['&'] ∨ t = ['|']
        · rw [if_pos hop] at h
          cases hres : parsePrimaryF n ts' with
          | ok pr =>
            obtain ⟨right, rem0⟩ := pr
            rw [hres] at h
            have hacc := ihL _ rem0 rem nm h
            by_cases ht : t = ['&']
            · rw [if_pos ht] at hacc; simp at hacc
            · rw [if_neg ht] at hacc; simp at hacc
          | error er => rw [hres] at h; simp at h
        · rw [if_neg hop] at h
          simp only [Except.ok.injEq, Prod.mk.injEq] at h
          exact h.1
    have hE : ∀ ts rem nm, parseExprF (n + 1) ts = .ok (.var nm, rem) →
        nm.data ∈ ts := by
      intro ts rem nm h
      rw [show parseExprF (n + 1) ts =
        (match parsePrimaryF n ts with
        | .ok (left, rem) => parseLoopF n left rem
        | .error er => .error er) from rfl] at h
      cases hres : parsePrimaryF n ts with
      | ok pr =>
        obtain ⟨left, rem0⟩ := pr
        rw [hres] at h
        have hleft := ihL left rem0 rem nm h
        exact ihP ts rem0 nm (by rw [hres, hleft])
      | error er => rw [hres] at h; simp at h
    exact ⟨hP, hL, hE⟩

/-- If parsing a whole input returns a bare `Variable`, its name is one of
the scanner's tokens of the keyword-replaced input. -/
theorem parse_ok_var_token (s nm : String)
    (h : parse_expression s = .ok (.var nm)) :
    nm.data ∈ tokenize (replaceAll orPat ['|'] (replaceAll andPat ['&']
      (replaceAll notPat ['~'] (s.data.filter (fun c => c ≠ ' '))))) := by
  have hunfold : parse_expression s =
      (match parseExprF (2 * (tokenize (replaceAll orPat ['|'] (replaceAll andPat ['&']
          (replaceAll notPat ['~'] (s.data.filter (fun c => c ≠ ' ')))))).length + 2)
        (tokenize (replaceAll orPat ['|'] (replaceAll andPat ['&']
          (replaceAll notPat ['~'] (s.data.filter (fun c => c ≠ ' ')))))) with
      | .ok (e, []) => .ok e
      | .ok (_, _ :: _) => .error ("Ошибка парсинга: " ++ "Лишние токены в выражении")
      | .error er => .error ("Ошибка парсинга: " ++ pmsg er)) := rfl
  set tokens := tokenize (replaceAll orPat ['|'] (replaceAll andPat ['&']
    (replaceAll notPat ['~'] (s.data.filter (fun c => c ≠ ' '))))) with htok
  rw [hunfold] at h
  cases hres : parseExprF (2 * tokens.length + 2) tokens with
  | ok pr =>
    obtain ⟨e, rem⟩ := pr
    rw [hres] at h
    cases rem with
    | nil =>
      have h2 : (Except.ok e : Except String Expression) = .ok (.var nm) := h
      simp only [Except.ok.injEq] at h2
      exact (parseVarAux (2 * tokens.length + 2)).2.2 tokens [] nm
        (by rw [hres, h2])
    | cons a b =>
      have h2 : (Except.error ("Ошибка парсинга: " ++ "Лишние токены в выражении") :
          Except String Expression) = .ok (.var nm) := h
      simp at h2
  | error er =>
    rw [hres] at h
    have h2 : (Except.error ("Ошибка парсинга: " ++ pmsg er) :
        Except String Expression) = .ok (.var nm) := h
    simp at h2

/-- C8 counterexample.  The claim's own examples `Andrew` and `Notify` are
NOT corrupted: keyword replacement is case-sensitive, `"Andrew"` contains no
lowercase `"and"` and `"Notify"` no lowercase `"not"`, so both parse to the
intact `Variable`. -/
theorem C8_keyword_corruption_counterexample :
    parse_expression "Andrew" = .ok (.var "Andrew") ∧
    parse_expression "Notify" = .ok (.var "Notify") :=
  ⟨rfl, rfl⟩

/-- C8 amended.  For every variable name that contains `"not"`, `"and"` or
`"or"` as a case-sensitive (lowercase) substring — e.g. `"Corn"`, but not
`"Andrew"` or `"Notify"` — parsing the bare name corrupts it: the keyword
substring is replaced by an operator symbol before scanning, so
`parse_expression` does not return `Variable(name)`. -/
theorem C8_keyword_corruption (nm : String)
    (h : hasSub notPat nm.data = true ∨ hasSub andPat nm.data = true ∨
      hasSub orPat nm.data = true) :
    parse_expression nm ≠ .ok (.var nm) := by
  intro hok
  have hmem := parse_ok_var_token nm nm hok
  have hlen1 := tokenize_token_length _ _ hmem
  have hfsub : hasSub notPat (nm.data.filter (fun c => c ≠ ' ')) = true ∨
      hasSub andPat (nm.data.filter (fun c => c ≠ ' ')) = true ∨
      hasSub orPat (nm.data.filter (fun c => c ≠ ' ')) = true := by
    rcases h with h | h | h
    · exact Or.inl ((hasSub_iff_parts notPat _).mpr
        (infix_filter_of_no_space notPat nm.data (by decide)
          ((hasSub_iff_parts notPat nm.data).mp h)))
    · exact Or.inr (Or.inl ((hasSub_iff_parts andPat _).mpr
        (infix_filter_of_no_space andPat nm.data (by decide)
          ((hasSub_iff_parts andPat nm.data).mp h))))
    · exact Or.inr (Or.inr ((hasSub_iff_parts orPat _).mpr
        (infix_filter_of_no_space orPat nm.data (by decide)
          ((hasSub_iff_parts orPat nm.data).mp h))))
  have hshrink := processed_shrink (nm.data.filter (fun c => c ≠ ' ')) hfsub
  have hfl : (nm.data.filter (fun c => c ≠ ' ')).length ≤ nm.data.length :=
    List.length_filter_le _ _
  omega

/-- Witness for C8 amended at the spec's example `"Corn"` (which contains
lowercase `"or"`). -/
theorem C8_keyword_corruption_witness :
    parse_expression "Corn" ≠ .ok (.var "Corn") :=
  C8_keyword_corruption "Corn" (Or.inr (Or.inr (by decide)))

/-- C9 counterexample.  `"Truex"` does NOT lex as a single IDENT: the
scanner checks the literal prefix `"True"` before the alphabetic-run rule,
so it lexes as `TRUE` followed by IDENT `"x"`, and the whole input fails
with the leftover-tokens error.  Likewise non-space whitespace is NOT
removed before keyword replacement: a tab inside `and` keeps the keyword
from being recognised, so `"x a\tnd y"` fails instead of parsing as
`And(x, y)`. -/
theorem C9_scanner_counterexample :
    tokenize "Truex".data = [['T', 'r', 'u', 'e'], ['x']] ∧
    tokenize "Truex".data ≠ [['T', 'r', 'u', 'e', 'x']] ∧
    parse_expression "Truex" =
      .error ("Ошибка парсинга: " ++ "Лишние токены в выражении") ∧
    parse_expression "x a\tnd y" =
      .error ("Ошибка парсинга: " ++ "Лишние токены в выражении") :=
  ⟨rfl, by decide, rfl, rfl⟩

/-- C9 amended.  The scanner removes only the space character before
keyword replacement (parsing depends only on the space-filtered text);
`"True"`/`"False"` are recognised as literal prefixes at each token start
before the alphabetic-run rule (so `True`-prefixed input always lexes a
TRUE token, whatever follows); an IDENT is a maximal alphabetic run at
positions not matching those prefixes; and every character that is neither
alphabetic nor one of `~&|()` — including non-space whitespace — is
silently dropped rather than failing. -/
theorem C9_scanner_amended :
    (∀ s₁ s₂ : String,
      s₁.data.filter (fun c => c ≠ ' ') = s₂.data.filter (fun c => c ≠ ' ') →
      parse_expression s₁ = parse_expression s₂) ∧
    (∀ rest : List Char,
      tokenize ('T' :: 'r' :: 'u' :: 'e' :: rest) = trueTok :: tokenize rest) ∧
    (∀ (c : Char) (cs : List Char), c.isAlpha = true →
      ¬(c = 'T' ∧ cs.take 3 = ['r', 'u', 'e']) →
      ¬(c = 'F' ∧ cs.take 4 = ['a', 'l', 's', 'e']) →
      tokenize (c :: cs) =
        (c :: cs.takeWhile Char.isAlpha) :: tokenize (cs.dropWhile Char.isAlpha)) ∧
    (∀ (c : Char) (cs : List Char), ¬c.isAlpha = true →
      ¬(c = '~' ∨ c = '&' ∨ c = '|' ∨ c = '(' ∨ c = ')') →
      tokenize (c :: cs) = tokenize cs) := by
  refine ⟨?_, ?_, ?_, ?_⟩
  · intro s₁ s₂ h
    have hrep : ∀ s : String, parse_expression s =
        (fun l : List Char =>
          match parseExprF (2 * (tokenize (replaceAll orPat ['|']
              (replaceAll andPat ['&'] (replaceAll notPat ['~'] l)))).length + 2)
            (tokenize (replaceAll orPat ['|'] (replaceAll andPat ['&']
              (replaceAll notPat ['~'] l)))) with
          | .ok (e, []) => .ok e
          | .ok (_, _ :: _) =>
            .error ("Ошибка парсинга: " ++ "Лишние токены в выражении")
          | .error er => .error ("Ошибка парсинга: " ++ pmsg er))
          (s.data.filter (fun c => c ≠ ' ')) := fun s => rfl
    rw [hrep s₁, hrep s₂, h]
  · intro rest
    show tokenizeF ('T' :: 'r' :: 'u' :: 'e' :: rest).length
      ('T' :: 'r' :: 'u' :: 'e' :: rest) = _
    have hlen : ('T' :: 'r' :: 'u' :: 'e' :: rest).length = rest.length + 4 := by
      simp only [List.length_cons]
    rw [hlen]
    rw [show tokenizeF (rest.length + 4) ('T' :: 'r' :: 'u' :: 'e' :: rest) =
      (if 'T' = 'T' ∧ ('r' :: 'u' :: 'e' :: rest).take 3 = ['r', 'u', 'e'] then
        trueTok :: tokenizeF (rest.length + 3) (('r' :: 'u' :: 'e' :: rest).drop 3)
      else if 'T' = 'F' ∧ ('r' :: 'u' :: 'e' :: rest).take 4 = ['a', 'l', 's', 'e'] then
        falseTok :: tokenizeF (rest.length + 3) (('r' :: 'u' :: 'e' :: rest).drop 4)
      else if ('T').isAlpha then
        ('T' :: ('r' :: 'u' :: 'e' :: rest).takeWhile Char.isAlpha) ::
          tokenizeF (rest.length + 3)
            (('r' :: 'u' :: 'e' :: rest).dropWhile Char.isAlpha)
      else if 'T' = '~' ∨ 'T' = '&' ∨ 'T' = '|' ∨ 'T' = '(' ∨ 'T' = ')' then
        ['T'] :: tokenizeF (rest.length + 3) ('r' :: 'u' :: 'e' :: rest)
      else tokenizeF (rest.length + 3) ('r' :: 'u' :: 'e' :: rest)) from rfl]
    rw [if_pos ⟨rfl, rfl⟩]
    show trueTok :: tokenizeF (rest.length + 3) rest = trueTok :: tokenize rest
    rw [tokenizeF_stable (rest.length + 3) rest rest.length (by omega) le_rfl]
    rfl
  · intro c cs hal hT hF
    show tokenizeF (c :: cs).length (c :: cs) = _
    rw [show (c :: cs).length = cs.length + 1 from rfl]
    rw [show tokenizeF (cs.length + 1) (c :: cs) =
      (if c = 'T' ∧ cs.take 3 = ['r', 'u', 'e'] then
        trueTok :: tokenizeF cs.length (cs.drop 3)
      else if c = 'F' ∧ cs.take 4 = ['a', 'l', 's', 'e'] then
        falseTok :: tokenizeF cs.length (cs.drop 4)
      else if c.isAlpha then
        (c :: cs.takeWhile Char.isAlpha) ::
          tokenizeF cs.length (cs.dropWhile Char.isAlpha)
      else if c = '~' ∨ c = '&' ∨ c = '|' ∨ c = '(' ∨ c = ')' then
        [c] :: tokenizeF cs.length cs
      else tokenizeF cs.length cs) from rfl]
    rw [if_neg hT, if_neg hF, if_pos hal]
    have hdw : (cs.dropWhile Char.isAlpha).length ≤ cs.length :=
      (List.dropWhile_sublist (l := cs) Char.isAlpha).length_le
    rw [tokenizeF_stable cs.length (cs.dropWhile Char.isAlpha)
      (cs.dropWhile Char.isAlpha).length hdw le_rfl]
    rfl
  · intro c cs hal hop
    show tokenizeF (c :: cs).length (c :: cs) = _
    rw [show (c :: cs).length = cs.length + 1 from rfl]
    rw [show tokenizeF (cs.length + 1) (c :: cs) =
      (if c = 'T' ∧ cs.take 3 = ['r', 'u', 'e'] then
        trueTok :: tokenizeF cs.length (cs.drop 3)
      else if c = 'F' ∧ cs.take 4 = ['a', 'l', 's', 'e'] then
        falseTok :: tokenizeF cs.length (cs.drop 4)
      else if c.isAlpha then
        (c :: cs.takeWhile Char.isAlpha) ::
          tokenizeF cs.length (cs.dropWhile Char.isAlpha)
      else if c = '~' ∨ c = '&' ∨ c = '|' ∨ c = '(' ∨ c = ')' then
        [c] :: tokenizeF cs.length cs
      else tokenizeF cs.length cs) from rfl]
    rw [if_neg (fun hc => hal (by rw [hc.1]; decide)),
      if_neg (fun hc => hal (by rw [hc.1]; decide)),
      if_neg hal, if_neg hop]
    rfl

/-- Witness for C9 amended: spaces versus none, `"Truex"`-style prefix,
an alphabetic run, and a dropped tab. -/
theorem C9_scanner_amended_witness :
    parse_expression "A " = parse_expression "A" ∧
    tokenize ('T' :: 'r' :: 'u' :: 'e' :: ['x']) = trueTok :: tokenize ['x'] ∧
    tokenize ('a' :: ['b']) =
      ('a' :: (['b'].takeWhile Char.isAlpha)) ::
        tokenize (['b'].dropWhile Char.isAlpha) ∧
    tokenize ('\t' :: ['y']) = tokenize ['y'] :=
  ⟨C9_scanner_amended.1 "A " "A" (by decide),
    C9_scanner_amended.2.1 ['x'],
    C9_scanner_amended.2.2.1 'a' ['b'] (by decide) (by decide) (by decide),
    C9_scanner_amended.2.2.2 '\t' ['y'] (by decide) (by decide)⟩

end LogicSimplifier
